import Mathlib

/-!
Verification development for the hbt bookmark-collection library.

The Rust sources are shallowly embedded here:
* `Flag`, `Entity` and its `update`/`merge` follow `core/src/entity.rs`;
* `Collection` and its operations follow `core/src/collection.rs`;
* the markdown event machine follows `core/src/markdown.rs`;
* HTML bookmark finalization follows `Entity::from_attrs` in
  `core/src/entity.rs` and the timestamp-attribute helpers of
  `core/src/html.rs` and the `netscape` module of `core/src/collection.rs`.

Rust `BTreeSet<Name>` / `BTreeSet<Label>` are represented as `Finset String`,
timestamps (`chrono::DateTime<Utc>` seconds) as `Int`, ids (`usize` indices)
as `Nat`, and the `HashMap<Url, Id>` URL index as an association list with
insert-replaces-existing-binding semantics.
-/

namespace Hbt

/-- Timestamps, in seconds since the Unix epoch (models `Time` wrapping
`chrono::DateTime<Utc>`; ordering agrees with the chronological order). -/
abbrev Time := Int

/-- Models `Url` from `core/src/entity.rs`, a wrapper around the external
`url` crate's parsed URL.  URLs are compared for equality as keys only, so
the parsed form is represented by its raw text. -/
structure Url where
  raw : String
deriving DecidableEq, Repr

/-- `str::trim`: leading and trailing whitespace removed (structural
re-implementation over the character list so that terms reduce). -/
def strTrim (s : String) : String :=
  ⟨((s.data.dropWhile Char.isWhitespace).reverse.dropWhile
      Char.isWhitespace).reverse⟩

/-- Emptiness of a string via its character list. -/
def strIsEmpty (s : String) : Bool := s.data.isEmpty

/-- `str::to_lowercase` (ASCII-relevant part, structural). -/
def strToLower (s : String) : String := ⟨s.data.map Char.toLower⟩

/-- Accumulating helper for `digitsToNat`. -/
def digitsToNatAux : List Char → Nat → Option Nat
  | [], acc => some acc
  | c :: rest, acc =>
    if c.isDigit then digitsToNatAux rest (acc * 10 + (c.toNat - 48))
    else none

/-- Digits of a decimal numeral, or `none` when empty or non-numeric. -/
def digitsToNat : List Char → Option Nat
  | [] => none
  | cs => digitsToNatAux cs 0

/-- `i64::from_str`: optional sign followed by decimal digits (structural
re-implementation of integer parsing). -/
def strToInt (s : String) : Option Int :=
  match s.data with
  | '-' :: rest => (digitsToNat rest).map (fun n => -(n : Int))
  | '+' :: rest => (digitsToNat rest).map (fun n => (n : Int))
  | cs => (digitsToNat cs).map (fun n => (n : Int))

/-- `str::split` on a single separator character (structural): `""` yields
`[""]`, and separators at the ends yield empty segments, as in Rust. -/
def splitChar (sep : Char) : List Char → List (List Char)
  | [] => [[]]
  | c :: rest =>
    match splitChar sep rest with
    | [] => [[]]
    | seg :: segs => if c = sep then [] :: seg :: segs else (c :: seg) :: segs

/-- Modelled from the spec: the external `url` crate parser (spec §6 lists it
as a consumed collaborator).  Its only behavior the core relies on here is
that parsing a well-formed URL succeeds and yields a stable key; it is
represented as accepting any nonempty string. -/
def Url.parse? (s : String) : Option Url :=
  if strIsEmpty s then none else some ⟨s⟩

/-- `Flag` from `core/src/entity.rs`: a tri-state boolean (unset / false /
true), stored as `Option<bool>`. -/
structure Flag where
  val : Option Bool
deriving DecidableEq, Repr

/-- `Flag::merge` from `core/src/entity.rs` lines 293-299. -/
def Flag.merge (f other : Flag) : Flag :=
  match f.val, other.val with
  | none, none => ⟨none⟩
  | some x, none => ⟨some x⟩
  | none, some x => ⟨some x⟩
  | some x, some y => ⟨some (x || y)⟩

/-- `LastVisitedAt::merge` from `core/src/entity.rs`: keeps the most recent
(maximum) time when both sides are known. -/
def mergeLastVisited (a b : Option Time) : Option Time :=
  match a, b with
  | none, none => none
  | some t, none => some t
  | none, some t => some t
  | some t1, some t2 => some (max t1 t2)

/-- `Entity` from `core/src/entity.rs`.  `Name`/`Label`/`Extended` newtypes
over `String` are represented as plain strings; `CreatedAt`/`UpdatedAt`
newtypes over `Time` as plain times. -/
structure Entity where
  url : Url
  created_at : Time
  updated_at : List Time
  names : Finset String
  labels : Finset String
  shared : Flag
  to_read : Flag
  is_feed : Flag
  extended : List String
  last_visited_at : Option Time
deriving DecidableEq

/-- `Entity::new` from `core/src/entity.rs`: fresh entity with empty
`updated_at`, the optional name as a singleton name set, and all flags
unset. -/
def Entity.new (url : Url) (created_at : Time) (maybe_name : Option String)
    (labels : Finset String) : Entity where
  url := url
  created_at := created_at
  updated_at := []
  names := match maybe_name with | some n => {n} | none => ∅
  labels := labels
  shared := ⟨none⟩
  to_read := ⟨none⟩
  is_feed := ⟨none⟩
  extended := []
  last_visited_at := none

/-- `Entity::update` from `core/src/entity.rs` lines 478-495: the smaller of
the incoming time and `created_at` becomes `created_at`, the other is pushed
onto `updated_at`, which is then sorted; names and labels are extended. -/
def Entity.update (e : Entity) (updated_at : Time) (names labels : Finset String) :
    Entity :=
  let e :=
    if updated_at < e.created_at then
      { e with
        updated_at := List.insertionSort (· ≤ ·) (e.updated_at ++ [e.created_at])
        created_at := updated_at }
    else
      { e with
        updated_at := List.insertionSort (· ≤ ·) (e.updated_at ++ [updated_at]) }
  { e with names := e.names ∪ names, labels := e.labels ∪ labels }

/-- `Entity::merge` from `core/src/entity.rs` lines 497-504: `update` with the
other entity's creation time, names and labels, then merge the tri-state
flags and `last_visited_at`. -/
def Entity.merge (e other : Entity) : Entity :=
  let e := e.update other.created_at other.names other.labels
  { e with
    shared := e.shared.merge other.shared
    to_read := e.to_read.merge other.to_read
    is_feed := e.is_feed.merge other.is_feed
    last_visited_at := mergeLastVisited e.last_visited_at other.last_visited_at }

/-- Association-list lookup modelling `HashMap::get` on the URL index. -/
def urlsLookup : List (Url × Nat) → Url → Option Nat
  | [], _ => none
  | (u', i) :: rest, u => if u' = u then some i else urlsLookup rest u

/-- Association-list insert modelling `HashMap::insert`: the new binding
replaces any existing binding for the same key. -/
def urlsInsert (m : List (Url × Nat)) (u : Url) (i : Nat) : List (Url × Nat) :=
  (u, i) :: m.filter (fun p => p.1 ≠ u)

/-- In-place update of one element of a list, modelling `&mut self.nodes[id]`
/ `&mut self.edges[from]` (out-of-range indices leave the list unchanged;
in Rust they are unreachable panics). -/
def modifyAt {α : Type} : List α → Nat → (α → α) → List α
  | [], _, _ => []
  | x :: xs, 0, f => f x :: xs
  | x :: xs, n + 1, f => x :: modifyAt xs n f

/-- `Collection` from `core/src/collection.rs`: entity nodes, one adjacency
list per id, and the URL index. -/
structure Collection where
  nodes : List Entity
  edges : List (List Nat)
  urls : List (Url × Nat)
deriving DecidableEq

/-- `Collection::new`. -/
def Collection.empty : Collection := ⟨[], [], []⟩

/-- `Collection::len` returns the node count (the function also asserts that
it equals the edge-list count; that assertion is the invariant proved for
claim C4). -/
def Collection.len (c : Collection) : Nat := c.nodes.length

/-- `Collection::id` from `core/src/collection.rs`: URL-index lookup. -/
def Collection.id (c : Collection) (u : Url) : Option Nat := urlsLookup c.urls u

/-- `Collection::insert` from `core/src/collection.rs` lines 473-480: appends
the node and an empty edge slot and indexes the URL; returns the new id. -/
def Collection.insert (c : Collection) (e : Entity) : Collection × Nat :=
  let id := c.len
  (⟨c.nodes ++ [e], c.edges ++ [[]], urlsInsert c.urls e.url id⟩, id)

/-- `Collection::upsert` from `core/src/collection.rs` lines 482-490: merge
into the existing entity when the URL is present, insert otherwise. -/
def Collection.upsert (c : Collection) (other : Entity) : Collection × Nat :=
  match c.id other.url with
  | some id => ({ c with nodes := modifyAt c.nodes id (fun e => e.merge other) }, id)
  | none => c.insert other

/-- `Collection::add_edge` from `core/src/collection.rs` lines 492-498:
appends `to` to `from`'s adjacency list unless already present. -/
def Collection.addEdge (c : Collection) (f t : Nat) : Collection :=
  { c with edges := modifyAt c.edges f (fun l => if t ∈ l then l else l ++ [t]) }

/-- `Collection::add_edges` from `core/src/collection.rs` lines 500-503: adds
the edge in both directions. -/
def Collection.addEdges (c : Collection) (f t : Nat) : Collection :=
  (c.addEdge f t).addEdge t f

/-- `Collection::edges(id)`: the adjacency list of an id. -/
def Collection.edgesAt (c : Collection) (i : Nat) : List Nat := c.edges.getD i []

/-- Lookup of a label in the collected `BTreeMap<Label, Label>` of
`Collection::update_labels` (later mapping entries overwrite earlier ones
for the same key, as in a map collected from an iterator). -/
def mappingLookup : List (String × String) → String → Option String
  | [], _ => none
  | (k, v) :: rest, l =>
    match mappingLookup rest l with
    | some v' => some v'
    | none => if k = l then some v else none

/-- `Collection::update_labels` from `core/src/collection.rs` lines 521-536:
for every entity, labels present as mapping keys are removed and the mapped
values inserted instead. -/
def Collection.updateLabels (c : Collection) (m : List (String × String)) :
    Collection :=
  { c with
    nodes := c.nodes.map fun e =>
      { e with
        labels :=
          e.labels.filter (fun l => mappingLookup m l = none) ∪
            (e.labels.filter (fun l => (mappingLookup m l).isSome)).image
              (fun l => (mappingLookup m l).getD l) } }

/-! ## Markdown structural parser (`core/src/markdown.rs`) -/

/-- `pulldown_cmark::HeadingLevel`. -/
inductive HLevel
  | h1 | h2 | h3 | h4 | h5 | h6
deriving DecidableEq, Repr

/-- `HeadingLevelExt` conversion to `usize` (`core/src/markdown.rs` lines
37-48). -/
def HLevel.toNat : HLevel → Nat
  | .h1 => 1
  | .h2 => 2
  | .h3 => 3
  | .h4 => 4
  | .h5 => 5
  | .h6 => 6

/-- The `pulldown_cmark::LinkType` values the parser distinguishes: `Inline`
and `Autolink` are handled specially; every other variant (reference,
collapsed, shortcut, email) falls into the generic start-tag arm. -/
inductive MdLinkType
  | inline | autolink | reference | shortcut
deriving DecidableEq, Repr

/-- The `pulldown_cmark::Tag` start tags the parser stores as
`current_tag`; tags it never inspects are collapsed into `other`. -/
inductive MdTag
  | heading (level : HLevel)
  | list
  | link (lt : MdLinkType) (dest : String)
  | item
  | other
deriving DecidableEq, Repr

/-- The `pulldown_cmark::Event` stream consumed by `from_markdown`:
start tags, text, inline code, and the end events the parser matches on
(`TagEnd::List`, `TagEnd::Link`); all other end events are `endOther`. -/
inductive MdEvent
  | start (t : MdTag)
  | text (s : String)
  | code (s : String)
  | endList
  | endLink
  | endOther
deriving DecidableEq, Repr

/-- The markdown `Error` taxonomy (`core/src/markdown.rs` lines 10-26); URL
parse failures arrive through the `Entity(#[from])` variant. -/
inductive MdError
  | entityUrl
  | missingUrl
  | missingDate
  | parseDate (s : String)
deriving DecidableEq, Repr

/-- Month-name table for the section-date format `"%B %-d, %Y"`. -/
def monthIndex (s : String) : Option Nat :=
  match s with
  | "January" => some 1
  | "February" => some 2
  | "March" => some 3
  | "April" => some 4
  | "May" => some 5
  | "June" => some 6
  | "July" => some 7
  | "August" => some 8
  | "September" => some 9
  | "October" => some 10
  | "November" => some 11
  | "December" => some 12
  | _ => none

/-- Modelled from the spec: the external date-string parser for the fixed
section-date format `"<Month name> <day>, <year>"` (spec §6 lists it as a
consumed collaborator).  A matching string maps injectively to a timestamp;
anything else fails. -/
def parseDate (s : String) : Option Time :=
  match splitChar ',' s.data with
  | [md, yr] =>
    match splitChar ' ' md with
    | [m, d] => do
      let mi ← monthIndex ⟨m⟩
      let dn ← digitsToNat d
      let yn ←
        match yr with
        | ' ' :: ydigits => digitsToNat ydigits
        | _ => none
      if 1 ≤ dn ∧ dn ≤ 31 then
        some ((((yn * 12 + mi) * 31 + dn) : Nat) * 86400)
      else
        none
    | _ => none
  | _ => none

/-- `ParserState` from `core/src/markdown.rs` lines 61-71. -/
structure MdState where
  name : Option String
  name_parts : List String
  date : Option Time
  url : Option Url
  labels : List String
  current_tag : Option MdTag
  current_heading_level : HLevel
  maybe_parent : Option Nat
  parents : List Nat
deriving DecidableEq

/-- `ParserState::new`. -/
def MdState.init : MdState where
  name := none
  name_parts := []
  date := none
  url := none
  labels := []
  current_tag := none
  current_heading_level := .h1
  maybe_parent := none
  parents := []

/-- `ParserState::reset` (`core/src/markdown.rs` lines 88-97): clears all
fields except `current_tag`. -/
def MdState.reset (s : MdState) : MdState :=
  { s with
    name := none
    name_parts := []
    date := none
    url := none
    labels := []
    current_heading_level := .h1
    maybe_parent := none
    parents := [] }

/-- `ParserState::save_entity` from `core/src/markdown.rs` lines 99-116:
requires a captured URL and a section date, builds an entity, upserts it,
adds bidirectional edges to the innermost parent, and records the new id as
candidate parent. -/
def MdState.saveEntity (s : MdState) (coll : Collection) :
    Except MdError (MdState × Collection) :=
  match s.url with
  | none => .error .missingUrl
  | some url =>
    let s := { s with url := none }
    match s.date with
    | none => .error .missingDate
    | some date =>
      let sn :=
        if s.name_parts.isEmpty then ({ s with name := none }, s.name)
        else (s, some (String.join s.name_parts))
      let s := { sn.1 with name_parts := [] }
      let labels : Finset String := s.labels.toFinset
      let entity := Entity.new url date sn.2 labels
      let p := coll.upsert entity
      let coll :=
        match s.parents.getLast? with
        | some parent => p.1.addEdges parent p.2
        | none => p.1
      .ok ({ s with maybe_parent := some p.2 }, coll)

/-- One step of the event loop of `Collection::from_markdown`
(`core/src/markdown.rs` lines 126-217). -/
def mdStep (st : MdState × Collection) (ev : MdEvent) :
    Except MdError (MdState × Collection) :=
  let s := st.1
  let coll := st.2
  match ev with
  | .start (.heading .h1) =>
    .ok ({ s.reset with current_tag := some (.heading .h1) }, coll)
  | .start (.heading level) =>
    .ok
      ({ s with
          current_tag := some (.heading level)
          current_heading_level := level
          labels := s.labels.take (level.toNat - 2) },
        coll)
  | .start .list =>
    match s.maybe_parent with
    | some parent =>
      .ok
        ({ s with current_tag := some .list, parents := s.parents ++ [parent] },
          coll)
    | none => .ok ({ s with current_tag := some .list }, coll)
  | .start (.link .inline dest) =>
    match Url.parse? dest with
    | some u =>
      .ok
        ({ s with
            current_tag := some (.link .inline dest)
            name_parts := []
            url := some u },
          coll)
    | none => .error .entityUrl
  | .start (.link .autolink dest) =>
    match Url.parse? dest with
    | some u =>
      .ok
        ({ s with
            current_tag := some (.link .autolink dest)
            name := none
            name_parts := []
            url := some u },
          coll)
    | none => .error .entityUrl
  | .start t =>
    .ok ({ s with current_tag := some t }, coll)
  | .text txt =>
    match s.current_tag, s.current_heading_level with
    | some (.heading _), .h1 =>
      match parseDate txt with
      | some d => .ok ({ s with date := some d }, coll)
      | none => .error (.parseDate txt)
    | some (.heading _), _ =>
      .ok ({ s with labels := s.labels ++ [txt] }, coll)
    | some (.link .inline _), _ =>
      .ok ({ s with name_parts := s.name_parts ++ [txt] }, coll)
    | _, _ => .ok (s, coll)
  | .code txt =>
    match s.current_tag with
    | some (.link .inline _) =>
      .ok ({ s with name_parts := s.name_parts ++ ["`" ++ txt ++ "`"] }, coll)
    | _ => .ok (s, coll)
  | .endList =>
    .ok ({ s with parents := s.parents.dropLast, maybe_parent := none }, coll)
  | .endLink => s.saveEntity coll
  | .endOther => .ok (s, coll)

/-- The event loop of `Collection::from_markdown`, folded over the event
stream from the initial state and an empty collection. -/
def runMd (evs : List MdEvent) : Except MdError (MdState × Collection) :=
  evs.foldlM mdStep (MdState.init, Collection.empty)

/-- `Collection::from_markdown`: the collection produced by a successful run
(the tokenization of markdown text into events is the external event source
of spec §6). -/
def fromMarkdown (evs : List MdEvent) : Except MdError Collection :=
  (runMd evs).map (·.2)

/-- Events that match the depth-1 heading start arm. -/
def isH1Start : MdEvent → Bool
  | .start (.heading .h1) => true
  | _ => false

/-- No depth-1 heading start occurs in the stream. -/
def noH1Start (evs : List MdEvent) : Bool := evs.all (fun e => !isH1Start e)

/-- The two link starts that capture a URL (inline and autolink). -/
def isUrlStart : MdEvent → Bool
  | .start (.link .inline _) => true
  | .start (.link .autolink _) => true
  | _ => false

/-- No URL-capturing link start occurs in the stream. -/
def noUrlStart (evs : List MdEvent) : Bool := evs.all (fun e => !isUrlStart e)

/-- No section date has been established, and the heading-text arm that
would establish one is unreachable. -/
def DateFree (s : MdState) : Prop :=
  s.date = none ∧
  ∀ lvl, s.current_tag = some (MdTag.heading lvl) →
    s.current_heading_level ≠ HLevel.h1

/-- The run succeeded so far and a URL has been captured. -/
def runOkUrl (evs : List MdEvent) : Bool :=
  match runMd evs with
  | .ok st => st.1.url.isSome
  | .error _ => false

/-- The run succeeded so far. -/
def runOkMd (evs : List MdEvent) : Bool :=
  match runMd evs with
  | .ok _ => true
  | .error _ => false

theorem mdStep_dateFree (s : MdState) (coll : Collection) (ev : MdEvent)
    (hev : isH1Start ev = false) (hdf : DateFree s) :
    ∀ out, mdStep (s, coll) ev = .ok out → DateFree out.1 := by
  intro out hstep
  obtain ⟨hd, htag⟩ := hdf
  cases ev with
  | start t =>
    cases t with
    | heading lvl =>
      cases lvl with
      | h1 => exact absurd hev (by simp [isH1Start])
      | h2 =>
        obtain rfl := Except.ok.inj hstep
        exact ⟨hd, fun lvl h => by simp⟩
      | h3 =>
        obtain rfl := Except.ok.inj hstep
        exact ⟨hd, fun lvl h => by simp⟩
      | h4 =>
        obtain rfl := Except.ok.inj hstep
        exact ⟨hd, fun lvl h => by simp⟩
      | h5 =>
        obtain rfl := Except.ok.inj hstep
        exact ⟨hd, fun lvl h => by simp⟩
      | h6 =>
        obtain rfl := Except.ok.inj hstep
        exact ⟨hd, fun lvl h => by simp⟩
    | list =>
      simp only [mdStep] at hstep
      cases hmp : s.maybe_parent with
      | some parent =>
        rw [hmp] at hstep
        obtain rfl := Except.ok.inj hstep
        exact ⟨hd, fun lvl h => by simp at h⟩
      | none =>
        rw [hmp] at hstep
        obtain rfl := Except.ok.inj hstep
        exact ⟨hd, fun lvl h => by simp at h⟩
    | link lt dest =>
      cases lt with
      | inline =>
        simp only [mdStep] at hstep
        cases hp : Url.parse? dest with
        | some u =>
          rw [hp] at hstep
          obtain rfl := Except.ok.inj hstep
          exact ⟨hd, fun lvl h => by simp at h⟩
        | none =>
          rw [hp] at hstep
          exact Except.noConfusion hstep
      | autolink =>
        simp only [mdStep] at hstep
        cases hp : Url.parse? dest with
        | some u =>
          rw [hp] at hstep
          obtain rfl := Except.ok.inj hstep
          exact ⟨hd, fun lvl h => by simp at h⟩
        | none =>
          rw [hp] at hstep
          exact Except.noConfusion hstep
      | reference =>
        obtain rfl := Except.ok.inj hstep
        exact ⟨hd, fun lvl h => by simp at h⟩
      | shortcut =>
        obtain rfl := Except.ok.inj hstep
        exact ⟨hd, fun lvl h => by simp at h⟩
    | item =>
      obtain rfl := Except.ok.inj hstep
      exact ⟨hd, fun lvl h => by simp at h⟩
    | other =>
      obtain rfl := Except.ok.inj hstep
      exact ⟨hd, fun lvl h => by simp at h⟩
  | text txt =>
    simp only [mdStep] at hstep
    cases hct : s.current_tag with
    | none =>
      rw [hct] at hstep
      obtain rfl := Except.ok.inj hstep
      exact ⟨hd, htag⟩
    | some t =>
      cases t with
      | heading lvl =>
        have hne := htag lvl hct
        rw [hct] at hstep
        cases hchl : s.current_heading_level <;> rw [hchl] at hstep
        · exact absurd hchl hne
        all_goals
          obtain rfl := Except.ok.inj hstep
          exact ⟨hd, fun lvl2 h => by simp⟩
      | list =>
        rw [hct] at hstep
        obtain rfl := Except.ok.inj hstep
        exact ⟨hd, htag⟩
      | link lt dest =>
        rw [hct] at hstep
        cases lt with
        | inline =>
          obtain rfl := Except.ok.inj hstep
          exact ⟨hd, fun lvl h => by simp at h⟩
        | autolink =>
          obtain rfl := Except.ok.inj hstep
          exact ⟨hd, htag⟩
        | reference =>
          obtain rfl := Except.ok.inj hstep
          exact ⟨hd, htag⟩
        | shortcut =>
          obtain rfl := Except.ok.inj hstep
          exact ⟨hd, htag⟩
      | item =>
        rw [hct] at hstep
        obtain rfl := Except.ok.inj hstep
        exact ⟨hd, htag⟩
      | other =>
        rw [hct] at hstep
        obtain rfl := Except.ok.inj hstep
        exact ⟨hd, htag⟩
  | code txt =>
    simp only [mdStep] at hstep
    cases hct : s.current_tag with
    | none =>
      rw [hct] at hstep
      obtain rfl := Except.ok.inj hstep
      exact ⟨hd, htag⟩
    | some t =>
      cases t with
      | link lt dest =>
        rw [hct] at hstep
        cases lt with
        | inline =>
          obtain rfl := Except.ok.inj hstep
          exact ⟨hd, fun lvl h => by simp at h⟩
        | autolink =>
          obtain rfl := Except.ok.inj hstep
          exact ⟨hd, htag⟩
        | reference =>
          obtain rfl := Except.ok.inj hstep
          exact ⟨hd, htag⟩
        | shortcut =>
          obtain rfl := Except.ok.inj hstep
          exact ⟨hd, htag⟩
      | heading lvl =>
        rw [hct] at hstep
        obtain rfl := Except.ok.inj hstep
        exact ⟨hd, htag⟩
      | list =>
        rw [hct] at hstep
        obtain rfl := Except.ok.inj hstep
        exact ⟨hd, htag⟩
      | item =>
        rw [hct] at hstep
        obtain rfl := Except.ok.inj hstep
        exact ⟨hd, htag⟩
      | other =>
        rw [hct] at hstep
        obtain rfl := Except.ok.inj hstep
        exact ⟨hd, htag⟩
  | endList =>
    obtain rfl := Except.ok.inj hstep
    exact ⟨hd, htag⟩
  | endLink =>
    simp only [mdStep, MdState.saveEntity] at hstep
    cases hu : s.url with
    | none =>
      rw [hu] at hstep
      exact Except.noConfusion hstep
    | some u =>
      rw [hu] at hstep
      rw [show ({ s with url := none } : MdState).date = s.date from rfl,
        hd] at hstep
      exact Except.noConfusion hstep
  | endOther =>
    obtain rfl := Except.ok.inj hstep
    exact ⟨hd, htag⟩

theorem mdStep_urlFree (s : MdState) (coll : Collection) (ev : MdEvent)
    (hev : isUrlStart ev = false) (hu : s.url = none) :
    ∀ out, mdStep (s, coll) ev = .ok out → out.1.url = none := by
  intro out hstep
  cases ev with
  | start t =>
    cases t with
    | heading lvl =>
      cases lvl
      all_goals
        obtain rfl := Except.ok.inj hstep
      · rfl
      all_goals exact hu
    | list =>
      simp only [mdStep] at hstep
      cases hmp : s.maybe_parent <;> rw [hmp] at hstep
      all_goals
        obtain rfl := Except.ok.inj hstep
        exact hu
    | link lt dest =>
      cases lt with
      | inline => exact absurd hev (by simp [isUrlStart])
      | autolink => exact absurd hev (by simp [isUrlStart])
      | reference =>
        obtain rfl := Except.ok.inj hstep
        exact hu
      | shortcut =>
        obtain rfl := Except.ok.inj hstep
        exact hu
    | item =>
      obtain rfl := Except.ok.inj hstep
      exact hu
    | other =>
      obtain rfl := Except.ok.inj hstep
      exact hu
  | text txt =>
    simp only [mdStep] at hstep
    cases hct : s.current_tag with
    | none =>
      rw [hct] at hstep
      obtain rfl := Except.ok.inj hstep
      exact hu
    | some t =>
      cases t with
      | heading lvl =>
        rw [hct] at hstep
        cases hchl : s.current_heading_level <;> rw [hchl] at hstep
        · cases hpd : parseDate txt <;> rw [hpd] at hstep
          · exact Except.noConfusion hstep
          · obtain rfl := Except.ok.inj hstep
            exact hu
        all_goals
          obtain rfl := Except.ok.inj hstep
          exact hu
      | list =>
        rw [hct] at hstep
        obtain rfl := Except.ok.inj hstep
        exact hu
      | link lt dest =>
        rw [hct] at hstep
        cases lt
        all_goals
          obtain rfl := Except.ok.inj hstep
          exact hu
      | item =>
        rw [hct] at hstep
        obtain rfl := Except.ok.inj hstep
        exact hu
      | other =>
        rw [hct] at hstep
        obtain rfl := Except.ok.inj hstep
        exact hu
  | code txt =>
    simp only [mdStep] at hstep
    cases hct : s.current_tag with
    | none =>
      rw [hct] at hstep
      obtain rfl := Except.ok.inj hstep
      exact hu
    | some t =>
      cases t with
      | link lt dest =>
        rw [hct] at hstep
        cases lt
        all_goals
          obtain rfl := Except.ok.inj hstep
          exact hu
      | heading lvl =>
        rw [hct] at hstep
        obtain rfl := Except.ok.inj hstep
        exact hu
      | list =>
        rw [hct] at hstep
        obtain rfl := Except.ok.inj hstep
        exact hu
      | item =>
        rw [hct] at hstep
        obtain rfl := Except.ok.inj hstep
        exact hu
      | other =>
        rw [hct] at hstep
        obtain rfl := Except.ok.inj hstep
        exact hu
  | endList =>
    obtain rfl := Except.ok.inj hstep
    exact hu
  | endLink =>
    simp only [mdStep, MdState.saveEntity] at hstep
    rw [hu] at hstep
    exact Except.noConfusion hstep
  | endOther =>
    obtain rfl := Except.ok.inj hstep
    exact hu

theorem runAux_dateFree (evs : List MdEvent) :
    ∀ st : MdState × Collection, noH1Start evs = true → DateFree st.1 →
      ∀ out, evs.foldlM mdStep st = .ok out → DateFree out.1 := by
  induction evs with
  | nil =>
    intro st _ hdf out h
    obtain rfl := Except.ok.inj h
    exact hdf
  | cons e rest ih =>
    intro st hno hdf out h
    have hcons := hno
    simp only [noH1Start, List.all_cons, Bool.and_eq_true, Bool.not_eq_eq_eq_not,
      Bool.not_true] at hcons
    cases hm : mdStep st e with
    | error err =>
      rw [List.foldlM_cons, hm] at h
      exact Except.noConfusion h
    | ok stm =>
      rw [List.foldlM_cons, hm] at h
      exact ih stm hcons.2 (mdStep_dateFree st.1 st.2 e hcons.1 hdf stm hm)
        out h

theorem runAux_urlFree (evs : List MdEvent) :
    ∀ st : MdState × Collection, noUrlStart evs = true → st.1.url = none →
      ∀ out, evs.foldlM mdStep st = .ok out → out.1.url = none := by
  induction evs with
  | nil =>
    intro st _ huf out h
    obtain rfl := Except.ok.inj h
    exact huf
  | cons e rest ih =>
    intro st hno huf out h
    have hcons := hno
    simp only [noUrlStart, List.all_cons, Bool.and_eq_true, Bool.not_eq_eq_eq_not,
      Bool.not_true] at hcons
    cases hm : mdStep st e with
    | error err =>
      rw [List.foldlM_cons, hm] at h
      exact Except.noConfusion h
    | ok stm =>
      rw [List.foldlM_cons, hm] at h
      exact ih stm hcons.2 (mdStep_urlFree st.1 st.2 e hcons.1 huf stm hm)
        out h

/-- C7: a link-end with a captured URL reached before any depth-1 date
heading makes `from_markdown` fail with `MissingDate` and return no
collection. -/
theorem markdown_missing_date (evs rest : List MdEvent)
    (h1 : noH1Start evs = true) (h2 : runOkUrl evs = true) :
    fromMarkdown (evs ++ MdEvent.endLink :: rest) =
      .error MdError.missingDate := by
  unfold runOkUrl at h2
  cases hr : runMd evs with
  | error err =>
    rw [hr] at h2
    exact absurd h2 (by simp)
  | ok st =>
    rw [hr] at h2
    obtain ⟨u, hu⟩ := Option.isSome_iff_exists.mp h2
    have hdf : DateFree st.1 :=
      runAux_dateFree evs (MdState.init, Collection.empty) h1
        ⟨rfl, fun lvl h => Option.noConfusion h⟩ st hr
    have hsave : st.1.saveEntity st.2 = .error .missingDate := by
      unfold MdState.saveEntity
      rw [hu]
      rw [show ({ st.1 with url := none } : MdState).date = st.1.date from rfl,
        hdf.1]
    show ((evs ++ MdEvent.endLink :: rest).foldlM mdStep
        (MdState.init, Collection.empty)).map (·.2) = _
    rw [List.foldlM_append]
    rw [show evs.foldlM mdStep (MdState.init, Collection.empty) = runMd evs
      from rfl, hr]
    show (((MdEvent.endLink :: rest).foldlM mdStep st).map (·.2)) = _
    rw [List.foldlM_cons]
    rw [show mdStep st MdEvent.endLink = st.1.saveEntity st.2 from rfl, hsave]
    rfl

/-- Witness for C7 at a concrete event stream: a list-item inline link whose
link-end arrives with no preceding depth-1 heading. -/
theorem markdown_missing_date_witness :
    (noH1Start [MdEvent.start MdTag.list, MdEvent.start MdTag.item,
        MdEvent.start (MdTag.link MdLinkType.inline "http://example.com/")] =
      true) ∧
    (runOkUrl [MdEvent.start MdTag.list, MdEvent.start MdTag.item,
        MdEvent.start (MdTag.link MdLinkType.inline "http://example.com/")] =
      true) ∧
    fromMarkdown
        ([MdEvent.start MdTag.list, MdEvent.start MdTag.item,
          MdEvent.start (MdTag.link MdLinkType.inline "http://example.com/")] ++
          MdEvent.endLink :: []) = .error MdError.missingDate :=
  ⟨by decide, by decide, markdown_missing_date _ _ (by decide) (by decide)⟩

/-- C10: a link-end reached while no inline or autolink start has captured a
URL (for example a reference link) aborts `from_markdown` with `MissingUrl`. -/
theorem markdown_missing_url (evs rest : List MdEvent)
    (h1 : noUrlStart evs = true) (h2 : runOkMd evs = true) :
    fromMarkdown (evs ++ MdEvent.endLink :: rest) =
      .error MdError.missingUrl := by
  unfold runOkMd at h2
  cases hr : runMd evs with
  | error err =>
    rw [hr] at h2
    exact absurd h2 (by simp)
  | ok st =>
    have huf : st.1.url = none :=
      runAux_urlFree evs (MdState.init, Collection.empty) h1 rfl st hr
    have hsave : st.1.saveEntity st.2 = .error .missingUrl := by
      unfold MdState.saveEntity
      rw [huf]
    show ((evs ++ MdEvent.endLink :: rest).foldlM mdStep
        (MdState.init, Collection.empty)).map (·.2) = _
    rw [List.foldlM_append]
    rw [show evs.foldlM mdStep (MdState.init, Collection.empty) = runMd evs
      from rfl, hr]
    show (((MdEvent.endLink :: rest).foldlM mdStep st).map (·.2)) = _
    rw [List.foldlM_cons]
    rw [show mdStep st MdEvent.endLink = st.1.saveEntity st.2 from rfl, hsave]
    rfl

/-- Witness for C10 at a concrete event stream: a reference link inside a
dated section; its link-end arrives with no captured URL. -/
theorem markdown_missing_url_witness :
    (noUrlStart [MdEvent.start (MdTag.heading HLevel.h1),
        MdEvent.text "November 2, 2023", MdEvent.endOther,
        MdEvent.start MdTag.list, MdEvent.start MdTag.item,
        MdEvent.start (MdTag.link MdLinkType.reference "http://example.com/"),
        MdEvent.text "a name"] = true) ∧
    (runOkMd [MdEvent.start (MdTag.heading HLevel.h1),
        MdEvent.text "November 2, 2023", MdEvent.endOther,
        MdEvent.start MdTag.list, MdEvent.start MdTag.item,
        MdEvent.start (MdTag.link MdLinkType.reference "http://example.com/"),
        MdEvent.text "a name"] = true) ∧
    fromMarkdown
        ([MdEvent.start (MdTag.heading HLevel.h1),
          MdEvent.text "November 2, 2023", MdEvent.endOther,
          MdEvent.start MdTag.list, MdEvent.start MdTag.item,
          MdEvent.start (MdTag.link MdLinkType.reference "http://example.com/"),
          MdEvent.text "a name"] ++ MdEvent.endLink :: []) =
      .error MdError.missingUrl :=
  ⟨by decide, by decide, markdown_missing_url _ _ (by decide) (by decide)⟩

theorem runStepCons (st st' : MdState × Collection) (e : MdEvent)
    (evs : List MdEvent) (out : Except MdError (MdState × Collection))
    (h1 : mdStep st e = .ok st') (h2 : evs.foldlM mdStep st' = out) :
    (e :: evs).foldlM mdStep st = out := by
  rw [List.foldlM_cons, h1]
  exact h2

/-- C8: in a markdown stream where a second inline link sits in a sub-list
nested under a list item holding a first inline link (distinct URLs, active
section date), the resulting store has a bidirectional edge between the two
ids. -/
theorem markdown_nested_link_edges (ds u1 u2 n1 n2 : String) (t : Time)
    (hd : parseDate ds = some t) (h1 : strIsEmpty u1 = false)
    (h2 : strIsEmpty u2 = false) (hne : u1 ≠ u2) :
    ∃ c, fromMarkdown
        [.start (.heading .h1), .text ds, .endOther,
         .start .list, .start .item, .start (.link .inline u1), .text n1,
         .endLink,
         .start .list, .start .item, .start (.link .inline u2), .text n2,
         .endLink,
         .endList, .endOther, .endList] = .ok c ∧
      c.id ⟨u1⟩ = some 0 ∧ c.id ⟨u2⟩ = some 1 ∧
      1 ∈ c.edgesAt 0 ∧ 0 ∈ c.edgesAt 1 := by
  have hp1 : Url.parse? u1 = some ⟨u1⟩ := by simp [Url.parse?, h1]
  have hp2 : Url.parse? u2 = some ⟨u2⟩ := by simp [Url.parse?, h2]
  have hlk : urlsLookup [(Url.mk u1, 0)] ⟨u2⟩ = none := by
    simp [urlsLookup, Url.mk.injEq, hne]
  refine ⟨⟨[Entity.new ⟨u1⟩ t (some (String.join [n1])) (List.toFinset []),
      Entity.new ⟨u2⟩ t (some (String.join [n2])) (List.toFinset [])],
      [[1], [0]], urlsInsert [(⟨u1⟩, 0)] ⟨u2⟩ 1⟩,
    ?_, ?_, ?_, ?_, ?_⟩
  · have he1 : mdStep (MdState.init, Collection.empty)
        (.start (.heading .h1)) =
        .ok (⟨none, [], none, none, [], some (.heading .h1), .h1, none, []⟩,
          Collection.empty) := rfl
    have he2 : mdStep
        ((⟨none, [], none, none, [], some (.heading .h1), .h1, none, []⟩ :
          MdState), Collection.empty) (.text ds) =
        .ok (⟨none, [], some t, none, [], some (.heading .h1), .h1, none, []⟩,
          Collection.empty) := by
      simp only [mdStep, hd]
    have he6 : mdStep
        ((⟨none, [], some t, none, [], some .item, .h1, none, []⟩ : MdState),
          Collection.empty) (.start (.link .inline u1)) =
        .ok (⟨none, [], some t, some ⟨u1⟩, [], some (.link .inline u1), .h1,
            none, []⟩, Collection.empty) := by
      simp only [mdStep, hp1]
    have he8 : mdStep
        ((⟨none, [n1], some t, some ⟨u1⟩, [], some (.link .inline u1), .h1,
          none, []⟩ : MdState), Collection.empty) .endLink =
        .ok (⟨none, [], some t, none, [], some (.link .inline u1), .h1,
            some 0, []⟩,
          (⟨[Entity.new ⟨u1⟩ t (some (String.join [n1])) (List.toFinset [])],
            [[]], [(⟨u1⟩, 0)]⟩ : Collection)) := rfl
    have he11 : mdStep
        ((⟨none, [], some t, none, [], some .item, .h1, some 0, [0]⟩ :
          MdState),
          (⟨[Entity.new ⟨u1⟩ t (some (String.join [n1])) (List.toFinset [])],
            [[]], [(⟨u1⟩, 0)]⟩ : Collection))
        (.start (.link .inline u2)) =
        .ok (⟨none, [], some t, some ⟨u2⟩, [], some (.link .inline u2), .h1,
            some 0, [0]⟩,
          (⟨[Entity.new ⟨u1⟩ t (some (String.join [n1])) (List.toFinset [])],
            [[]], [(⟨u1⟩, 0)]⟩ : Collection)) := by
      simp only [mdStep, hp2]
    have he13 : mdStep
        ((⟨none, [n2], some t, some ⟨u2⟩, [], some (.link .inline u2), .h1,
          some 0, [0]⟩ : MdState),
          (⟨[Entity.new ⟨u1⟩ t (some (String.join [n1])) (List.toFinset [])],
            [[]], [(⟨u1⟩, 0)]⟩ : Collection)) .endLink =
        .ok (⟨none, [], some t, none, [], some (.link .inline u2), .h1,
            some 1, [0]⟩,
          (⟨[Entity.new ⟨u1⟩ t (some (String.join [n1])) (List.toFinset []),
              Entity.new ⟨u2⟩ t (some (String.join [n2])) (List.toFinset [])],
            [[1], [0]], urlsInsert [(⟨u1⟩, 0)] ⟨u2⟩ 1⟩ :
            Collection)) := by
      simp only [mdStep, MdState.saveEntity, Entity.new, Collection.upsert,
        Collection.id, hlk]
      rfl
    have hrun : List.foldlM mdStep (MdState.init, Collection.empty)
        [MdEvent.start (MdTag.heading HLevel.h1), MdEvent.text ds,
          MdEvent.endOther, MdEvent.start MdTag.list, MdEvent.start MdTag.item,
          MdEvent.start (MdTag.link MdLinkType.inline u1), MdEvent.text n1,
          MdEvent.endLink, MdEvent.start MdTag.list, MdEvent.start MdTag.item,
          MdEvent.start (MdTag.link MdLinkType.inline u2), MdEvent.text n2,
          MdEvent.endLink, MdEvent.endList, MdEvent.endOther,
          MdEvent.endList] =
        .ok (⟨none, [], some t, none, [], some (.link .inline u2), .h1, none,
            []⟩,
          ⟨[Entity.new ⟨u1⟩ t (some (String.join [n1])) (List.toFinset []),
            Entity.new ⟨u2⟩ t (some (String.join [n2])) (List.toFinset [])],
            [[1], [0]], urlsInsert [(⟨u1⟩, 0)] ⟨u2⟩ 1⟩) := by
      refine runStepCons _ _ _ _ _ he1 ?_
      refine runStepCons _ _ _ _ _ he2 ?_
      refine runStepCons _ _ _ _ _ rfl ?_
      refine runStepCons _ _ _ _ _ rfl ?_
      refine runStepCons _ _ _ _ _ rfl ?_
      refine runStepCons _ _ _ _ _ he6 ?_
      refine runStepCons _ _ _ _ _ rfl ?_
      refine runStepCons _ _ _ _ _ he8 ?_
      refine runStepCons _ _ _ _ _ rfl ?_
      refine runStepCons _ _ _ _ _ rfl ?_
      refine runStepCons _ _ _ _ _ he11 ?_
      refine runStepCons _ _ _ _ _ rfl ?_
      refine runStepCons _ _ _ _ _ he13 ?_
      refine runStepCons _ _ _ _ _ rfl ?_
      refine runStepCons _ _ _ _ _ rfl ?_
      refine runStepCons _ _ _ _ _ rfl ?_
      rfl
    unfold fromMarkdown runMd
    rw [hrun]
    rfl
  · show urlsLookup (urlsInsert [(Url.mk u1, 0)] ⟨u2⟩ 1) ⟨u1⟩ = some 0
    simp [urlsInsert, urlsLookup, List.filter, Url.mk.injEq, hne, Ne.symm hne]
  · show urlsLookup (urlsInsert [(Url.mk u1, 0)] ⟨u2⟩ 1) ⟨u2⟩ = some 1
    simp [urlsInsert, urlsLookup]
  · show (1 : Nat) ∈ [1]
    simp
  · show (0 : Nat) ∈ [0]
    simp

/-- Witness for C8 at concrete data. -/
theorem markdown_nested_link_edges_witness :
    (parseDate "November 2, 2023" = some 65050473600 ∧
      strIsEmpty "http://a/" = false ∧ strIsEmpty "http://b/" = false ∧
      "http://a/" ≠ "http://b/") ∧
    (∃ c, fromMarkdown
        [.start (.heading .h1), .text "November 2, 2023", .endOther,
         .start .list, .start .item,
         .start (.link .inline "http://a/"), .text "A", .endLink,
         .start .list, .start .item,
         .start (.link .inline "http://b/"), .text "B", .endLink,
         .endList, .endOther, .endList] = .ok c ∧
      c.id ⟨"http://a/"⟩ = some 0 ∧ c.id ⟨"http://b/"⟩ = some 1 ∧
      1 ∈ c.edgesAt 0 ∧ 0 ∈ c.edgesAt 1) :=
  ⟨⟨by decide, rfl, rfl, by decide⟩,
    markdown_nested_link_edges "November 2, 2023" "http://a/" "http://b/"
      "A" "B" 65050473600 (by decide) rfl rfl (by decide)⟩

/-! ## HTML bookmark finalization (`core/src/entity.rs` html module,
`core/src/html.rs`, `netscape` module of `core/src/collection.rs`) -/

/-- The `entity::Error` variants reachable from attribute processing
(`core/src/entity.rs` lines 13-29). -/
inductive EntityError
  | missingUrl
  | parseUrl
  | parseInt
  | parseTimestamp
deriving DecidableEq, Repr

/-- `Time::parse_timestamp` from `core/src/entity.rs` lines 147-152: parse
the string as a signed 64-bit integer (failure: `ParseInt`), then interpret
it as Unix seconds.  The chrono out-of-range check is represented by the
`i64` bounds; the claims only exercise the integer-parse failure. -/
def Time.parseTimestamp (s : String) : Except EntityError Time :=
  match strToInt s with
  | none => .error .parseInt
  | some n =>
    if -(2 ^ 63) ≤ n ∧ n < 2 ^ 63 then .ok n else .error .parseInt

/-- Attribute maps: the `HashMap<String, String>` built by
`extract_attributes` (keys lowercased, hence unique as lowercase strings),
represented as an association list; `attrsLookup` models `HashMap::get`. -/
def attrsLookup : List (String × String) → String → Option String
  | [], _ => none
  | (k, v) :: rest, key => if k = key then some v else attrsLookup rest key

/-- The `for (key, value) in attrs` loop of `Entity::from_attrs`
(`core/src/entity.rs` lines 592-620), threading the entity under
construction and the captured raw `tags` attribute value. -/
def attrsLoop : List (String × String) → Entity → String →
    Except EntityError (Entity × String)
  | [], e, tags => .ok (e, tags)
  | (key, value) :: rest, e, tags =>
    let trimmed := strTrim value
    if strToLower key = "add_date" ∧ ¬strIsEmpty trimmed then do
      let tm ← Time.parseTimestamp trimmed
      attrsLoop rest { e with created_at := tm } tags
    else if strToLower key = "last_modified" ∧ ¬strIsEmpty trimmed then do
      let tm ← Time.parseTimestamp trimmed
      attrsLoop rest { e with updated_at := e.updated_at ++ [tm] } tags
    else if strToLower key = "last_visit" ∧ ¬strIsEmpty trimmed then do
      let tm ← Time.parseTimestamp trimmed
      attrsLoop rest { e with last_visited_at := some tm } tags
    else if strToLower key = "tags" ∧ ¬strIsEmpty trimmed then
      attrsLoop rest e value
    else if strToLower key = "private" then
      attrsLoop rest { e with shared := ⟨some (trimmed ≠ "1")⟩ } tags
    else if strToLower key = "toread" then
      attrsLoop rest { e with to_read := ⟨some (trimmed = "1")⟩ } tags
    else if strToLower key = "feed" then
      attrsLoop rest { e with is_feed := ⟨some (trimmed = "true")⟩ } tags
    else
      attrsLoop rest e tags

/-- The `for tag in tags.split(',')` loop of `Entity::from_attrs`
(`core/src/entity.rs` lines 622-632): empty segments are skipped, the
sentinel `"toread"` sets the flag instead of becoming a label, every other
trimmed segment is inserted as a label. -/
def tagLoop : List String → Entity → Entity
  | [], e => e
  | seg :: rest, e =>
    let s := strTrim seg
    if strIsEmpty s then tagLoop rest e
    else if s = "toread" then tagLoop rest { e with to_read := ⟨some true⟩ }
    else tagLoop rest { e with labels := insert s e.labels }

/-- `Entity::from_attrs` from `core/src/entity.rs` lines 568-635. -/
def Entity.fromAttrs (attrs : List (String × String))
    (names labels : Finset String) (extended : List String) :
    Except EntityError Entity :=
  match attrsLookup attrs "href" with
  | none => .error .missingUrl
  | some href =>
    match Url.parse? href with
    | none => .error .parseUrl
    | some url =>
      match attrsLoop attrs
          { url := url
            created_at := 0
            updated_at := []
            names := names
            labels := labels
            shared := ⟨none⟩
            to_read := ⟨none⟩
            is_feed := ⟨none⟩
            extended := extended
            last_visited_at := none } "" with
      | .error e => .error e
      | .ok (entity, tags) =>
        .ok (tagLoop ((splitChar ',' tags.data).map (fun cs => ⟨cs⟩)) entity)

/-- First attribute value whose lowercased key matches, modelling a
`HashMap` keyed by lowercased names (unique when the lowercased keys are
distinct). -/
def lookupLower : List (String × String) → String → Option String
  | [], _ => none
  | (k, v) :: rest, key =>
    if strToLower k = key then some v else lookupLower rest key

/-- The raw `tags` attribute value captured by the loop of
`Entity::from_attrs`: the value of a `tags` key whose trimmed value is
non-empty. -/
def tagsAttrVal : List (String × String) → Option String
  | [] => none
  | (k, v) :: rest =>
    if strToLower k = "tags" ∧ ¬strIsEmpty (strTrim v) then some v
    else tagsAttrVal rest

/-- The effective tags string after the attribute loop (empty when no
non-blank `tags` attribute exists). -/
def effTags (attrs : List (String × String)) : String :=
  (tagsAttrVal attrs).getD ""

/-- The trimmed comma-separated segments of a tags string. -/
def tagSegs (tg : String) : List String :=
  (splitChar ',' tg.data).map (fun cs => strTrim ⟨cs⟩)

/-- The label set contributed by a tags string: its trimmed segments less
blanks and the sentinel `"toread"`. -/
def goodTags (tg : String) : Finset String :=
  ((tagSegs tg).filter (fun s => !strIsEmpty s && !(s == "toread"))).toFinset

theorem strIsEmpty_eq (s : String) (h : strIsEmpty s = true) : s = "" := by
  cases s with
  | mk data =>
    cases data with
    | nil => rfl
    | cons c cs => simp [strIsEmpty] at h

theorem tagLoop_labels : ∀ (l : List String) (e : Entity),
    (tagLoop l e).labels = e.labels ∪
      ((l.map strTrim).filter
        (fun s => !strIsEmpty s && !(s == "toread"))).toFinset := by
  intro l
  induction l with
  | nil => intro e; simp [tagLoop]
  | cons seg rest ih =>
    intro e
    by_cases he : strIsEmpty (strTrim seg) = true
    · have hseg : strTrim seg = "" := strIsEmpty_eq _ he
      simp only [tagLoop, hseg]
      rw [if_pos (show strIsEmpty "" = true from rfl)]
      rw [ih e]
      congr 1
      simp [hseg, Finset.filter_insert, show strIsEmpty "" = true from rfl]
    · by_cases ht : strTrim seg = "toread"
      · simp only [tagLoop]
        rw [if_neg (by simp [he]), if_pos ht]
        rw [ih]
        simp only [List.map_cons, List.filter_cons, ht]
        simp
      · simp only [tagLoop]
        rw [if_neg (by simp [he]), if_neg ht]
        rw [ih]
        simp only [List.map_cons, List.filter_cons]
        rw [if_pos (by simp [he, ht])]
        simp [Finset.insert_union, Finset.union_insert]

theorem tagLoop_to_read : ∀ (l : List String) (e : Entity),
    (tagLoop l e).to_read =
      if "toread" ∈ l.map strTrim then (⟨some true⟩ : Flag) else e.to_read := by
  intro l
  induction l with
  | nil => intro e; simp [tagLoop]
  | cons seg rest ih =>
    intro e
    by_cases he : strIsEmpty (strTrim seg) = true
    · have hseg : strTrim seg = "" := strIsEmpty_eq _ he
      simp only [tagLoop, hseg]
      rw [if_pos (show strIsEmpty "" = true from rfl)]
      rw [ih e]
      simp [hseg]
    · by_cases ht : strTrim seg = "toread"
      · simp only [tagLoop]
        rw [if_neg (by simp [he]), if_pos ht]
        rw [ih]
        simp only [List.map_cons, ht]
        by_cases hm : "toread" ∈ rest.map strTrim <;> simp [hm]
      · simp only [tagLoop]
        rw [if_neg (by simp [he]), if_neg ht]
        rw [ih]
        simp only [List.map_cons]
        by_cases hm : "toread" ∈ rest.map strTrim
        · simp [hm]
        · simp [hm, Ne.symm ht]

theorem lookupLower_eq_none (m : List (String × String)) (key : String)
    (h : key ∉ m.map (fun p => strToLower p.1)) : lookupLower m key = none := by
  induction m with
  | nil => rfl
  | cons p rest ih =>
    obtain ⟨k, v⟩ := p
    simp only [List.map_cons, List.mem_cons] at h
    push_neg at h
    simp only [lookupLower]
    rw [if_neg (fun hc => h.1 hc.symm)]
    exact ih h.2

theorem tagsAttrVal_eq_none (m : List (String × String))
    (h : "tags" ∉ m.map (fun p => strToLower p.1)) : tagsAttrVal m = none := by
  induction m with
  | nil => rfl
  | cons p rest ih =>
    obtain ⟨k, v⟩ := p
    simp only [List.map_cons, List.mem_cons] at h
    push_neg at h
    simp only [tagsAttrVal]
    rw [if_neg (fun hc => h.1 hc.1.symm)]
    exact ih h.2

theorem attrsLoop_spec : ∀ (attrs : List (String × String)) (e : Entity)
    (tags : String) (out : Entity × String),
    (attrs.map (fun p => strToLower p.1)).Nodup →
    attrsLoop attrs e tags = .ok out →
    out.1.labels = e.labels ∧
    out.1.to_read = (match lookupLower attrs "toread" with
      | some v => (⟨some (decide (strTrim v = "1"))⟩ : Flag)
      | none => e.to_read) ∧
    out.2 = (match tagsAttrVal attrs with
      | some v => v
      | none => tags) := by
  intro attrs
  induction attrs with
  | nil =>
    intro e tags out _ h
    obtain rfl := Except.ok.inj h
    exact ⟨rfl, rfl, rfl⟩
  | cons p rest ih =>
    intro e tags out hnd h
    obtain ⟨k, v⟩ := p
    rw [List.map_cons, List.nodup_cons] at hnd
    obtain ⟨hnd1, hnd2⟩ := hnd
    simp only [attrsLoop] at h
    split at h
    · rename_i hc
      cases hts : Time.parseTimestamp (strTrim v) <;> rw [hts] at h
      · exact Except.noConfusion h
      · obtain ⟨hl, ht, hg⟩ := ih _ _ _ hnd2 h
        refine ⟨hl, ?_, ?_⟩
        · rw [ht]
          simp only [lookupLower]
          rw [hc.1, if_neg (by decide)]
        · rw [hg]
          simp only [tagsAttrVal]
          rw [hc.1, if_neg (by simp)]
    · rename_i hc1
      split at h
      · rename_i hc
        cases hts : Time.parseTimestamp (strTrim v) <;> rw [hts] at h
        · exact Except.noConfusion h
        · obtain ⟨hl, ht, hg⟩ := ih _ _ _ hnd2 h
          refine ⟨hl, ?_, ?_⟩
          · rw [ht]
            simp only [lookupLower]
            rw [hc.1, if_neg (by decide)]
          · rw [hg]
            simp only [tagsAttrVal]
            rw [hc.1, if_neg (by simp)]
      · rename_i hc2
        split at h
        · rename_i hc
          cases hts : Time.parseTimestamp (strTrim v) <;> rw [hts] at h
          · exact Except.noConfusion h
          · obtain ⟨hl, ht, hg⟩ := ih _ _ _ hnd2 h
            refine ⟨hl, ?_, ?_⟩
            · rw [ht]
              simp only [lookupLower]
              rw [hc.1, if_neg (by decide)]
            · rw [hg]
              simp only [tagsAttrVal]
              rw [hc.1, if_neg (by simp)]
        · rename_i hc3
          split at h
          · rename_i hc
            obtain ⟨hl, ht, hg⟩ := ih _ _ _ hnd2 h
            refine ⟨hl, ?_, ?_⟩
            · rw [ht]
              simp only [lookupLower]
              rw [hc.1, if_neg (by decide)]
            · rw [hg, tagsAttrVal_eq_none rest (hc.1 ▸ hnd1)]
              simp only [tagsAttrVal]
              rw [if_pos hc]
          · rename_i hc4
            split at h
            · rename_i hc
              obtain ⟨hl, ht, hg⟩ := ih _ _ _ hnd2 h
              refine ⟨hl, ?_, ?_⟩
              · rw [ht]
                simp only [lookupLower]
                rw [hc, if_neg (by decide)]
              · rw [hg]
                simp only [tagsAttrVal]
                rw [hc, if_neg (by simp)]
            · rename_i hc5
              split at h
              · rename_i hc
                obtain ⟨hl, ht, hg⟩ := ih _ _ _ hnd2 h
                refine ⟨hl, ?_, ?_⟩
                · rw [ht, lookupLower_eq_none rest "toread" (hc ▸ hnd1)]
                  simp only [lookupLower]
                  rw [if_pos hc]
                · rw [hg]
                  simp only [tagsAttrVal]
                  rw [hc, if_neg (by simp)]
              · rename_i hc6
                split at h
                · rename_i hc
                  obtain ⟨hl, ht, hg⟩ := ih _ _ _ hnd2 h
                  refine ⟨hl, ?_, ?_⟩
                  · rw [ht]
                    simp only [lookupLower]
                    rw [hc, if_neg (by decide)]
                  · rw [hg]
                    simp only [tagsAttrVal]
                    rw [hc, if_neg (by simp)]
                · rename_i hc7
                  obtain ⟨hl, ht, hg⟩ := ih _ _ _ hnd2 h
                  refine ⟨hl, ?_, ?_⟩
                  · rw [ht]
                    simp only [lookupLower]
                    rw [if_neg hc6]
                  · rw [hg]
                    simp only [tagsAttrVal]
                    rw [if_neg hc4]

instance {ε α : Type} [DecidableEq ε] [DecidableEq α] :
    DecidableEq (Except ε α) := fun a b =>
  match a, b with
  | .error e1, .error e2 =>
    if h : e1 = e2 then .isTrue (by rw [h])
    else .isFalse (fun hc => h (Except.error.inj hc))
  | .ok a1, .ok a2 =>
    if h : a1 = a2 then .isTrue (by rw [h])
    else .isFalse (fun hc => h (Except.ok.inj hc))
  | .error _, .ok _ => .isFalse (fun hc => Except.noConfusion hc)
  | .ok _, .error _ => .isFalse (fun hc => Except.noConfusion hc)

/-- C5: during HTML bookmark finalization the comma-separated tags value is
split; the trimmed segments other than blanks and the sentinel `"toread"`
are unioned with the incoming folder-stack labels, and `to_read` is set
exactly when the `toread` attribute trims to `"1"` or the tag `"toread"`
occurs among the split tags. -/
theorem from_attrs_tags_behavior (attrs : List (String × String))
    (names labels : Finset String) (ext : List String) (e : Entity)
    (hnodup : (attrs.map (fun p => strToLower p.1)).Nodup)
    (hok : Entity.fromAttrs attrs names labels ext = .ok e) :
    e.labels = labels ∪ goodTags (effTags attrs) ∧
    (e.to_read = ⟨some true⟩ ↔
      ((∃ v, lookupLower attrs "toread" = some v ∧ strTrim v = "1") ∨
        "toread" ∈ tagSegs (effTags attrs))) := by
  unfold Entity.fromAttrs at hok
  split at hok
  · exact Except.noConfusion hok
  · rename_i href hhref
    split at hok
    · exact Except.noConfusion hok
    · rename_i url hurl
      split at hok
      · exact Except.noConfusion hok
      · rename_i ent1 tags1 heq
        obtain rfl := Except.ok.inj hok
        obtain ⟨hl, ht, hg⟩ := attrsLoop_spec attrs _ "" _ hnodup heq
        replace hl : ent1.labels = labels := hl
        replace ht : ent1.to_read = (match lookupLower attrs "toread" with
          | some v => (⟨some (decide (strTrim v = "1"))⟩ : Flag)
          | none => (⟨none⟩ : Flag)) := ht
        replace hg : tags1 = (match tagsAttrVal attrs with
          | some v => v
          | none => "") := hg
        have htg : tags1 = effTags attrs := by
          rw [hg]
          unfold effTags
          cases tagsAttrVal attrs <;> rfl
        have hseg : (((splitChar ',' tags1.data).map
            (fun cs => (⟨cs⟩ : String))).map strTrim) =
            tagSegs (effTags attrs) := by
          rw [List.map_map, htg]
          rfl
        constructor
        · rw [tagLoop_labels, hl, hseg]
          rfl
        · rw [tagLoop_to_read, hseg]
          by_cases hm : "toread" ∈ tagSegs (effTags attrs)
          · rw [if_pos hm]
            simp [hm]
          · rw [if_neg hm, ht]
            cases hlk : lookupLower attrs "toread" with
            | some v =>
              simp only [hm, or_false]
              constructor
              · intro hv
                refine ⟨v, rfl, ?_⟩
                have := Flag.mk.inj hv
                have := Option.some.inj this
                exact of_decide_eq_true this
              · rintro ⟨v2, hv2, htrim⟩
                obtain rfl := Option.some.inj hv2
                rw [decide_eq_true htrim]
            | none =>
              simp only [hm, or_false]
              constructor
              · intro hv
                exact absurd (Flag.mk.inj hv) (by simp)
              · rintro ⟨v2, hv2, -⟩
                exact Option.noConfusion hv2

/-- Concrete attribute map for the C5 witness. -/
def attrsC : List (String × String) :=
  [("href", "http://example.com/"), ("toread", "0"),
   ("tags", "x, toread ,y")]

/-- The entity the C5 witness finalizes to. -/
def entC : Entity :=
  { url := ⟨"http://example.com/"⟩
    created_at := 0
    updated_at := []
    names := ∅
    labels := insert "y" (insert "x" {"folder"})
    shared := ⟨none⟩
    to_read := ⟨some true⟩
    is_feed := ⟨none⟩
    extended := []
    last_visited_at := none }

/-- Witness for C5 at a concrete attribute map. -/
theorem from_attrs_tags_behavior_witness :
    ((attrsC.map (fun p => strToLower p.1)).Nodup ∧
      Entity.fromAttrs attrsC ∅ {"folder"} [] = .ok entC) ∧
    (entC.labels = {"folder"} ∪ goodTags (effTags attrsC) ∧
      (entC.to_read = ⟨some true⟩ ↔
        ((∃ v, lookupLower attrsC "toread" = some v ∧ strTrim v = "1") ∨
          "toread" ∈ tagSegs (effTags attrsC)))) :=
  ⟨⟨by decide, by rfl⟩,
    from_attrs_tags_behavior attrsC ∅ {"folder"} [] entC (by decide)
      (by rfl)⟩

/-- Outcome of a Rust expression that either panics or produces a value;
used to model the `unwrap()` in `core/src/html.rs`. -/
inductive PanicOr (α : Type)
  | panicked
  | ok (a : α)
deriving DecidableEq, Repr

/-- `parse_timestamp_attr_opt` from `core/src/html.rs` lines 36-47: an
absent or blank attribute yields `None`, but a malformed timestamp hits
`Time::parse(trimmed).unwrap()  // TODO`, which panics instead of
propagating the parse error. -/
def htmlParseTimestampAttrOpt (attrs : List (String × String)) (key : String) :
    PanicOr (Option Time) :=
  match attrsLookup attrs key with
  | none => .ok none
  | some s =>
    let trimmed := strTrim s
    if strIsEmpty trimmed then .ok none
    else
      match Time.parseTimestamp trimmed with
      | .ok t => .ok (some t)
      | .error _ => .panicked

/-- `netscape::parse_timestamp_attr_opt` from `core/src/collection.rs`
lines 840-854: the same helper, but the parse error is propagated with
`?`. -/
def netscapeParseTimestampAttrOpt (attrs : List (String × String))
    (key : String) : Except EntityError (Option Time) :=
  match attrsLookup attrs key with
  | none => .ok none
  | some s =>
    let trimmed := strTrim s
    if strIsEmpty trimmed then .ok none
    else do
      let t ← Time.parseTimestamp trimmed
      pure (some t)

/-! ## Basic lemmas about the embedded operations -/

theorem modifyAt_length {α : Type} (l : List α) (i : Nat) (f : α → α) :
    (modifyAt l i f).length = l.length := by
  induction l generalizing i with
  | nil => rfl
  | cons x xs ih => cases i <;> simp [modifyAt, ih]

theorem getElem?_modifyAt_self {α : Type} (l : List α) (i : Nat) (f : α → α) :
    (modifyAt l i f)[i]? = (l[i]?).map f := by
  induction l generalizing i with
  | nil => simp [modifyAt]
  | cons x xs ih => cases i <;> simp [modifyAt, ih]

theorem getElem?_modifyAt_ne {α : Type} (l : List α) (i j : Nat) (f : α → α)
    (h : j ≠ i) : (modifyAt l i f)[j]? = l[j]? := by
  induction l generalizing i j with
  | nil => rfl
  | cons x xs ih =>
    cases i with
    | zero => cases j with
      | zero => exact absurd rfl h
      | succ j => simp [modifyAt]
    | succ i => cases j with
      | zero => simp [modifyAt]
      | succ j =>
        simp only [modifyAt, List.getElem?_cons_succ]
        exact ih i j (fun hji => h (by omega))

theorem modifyAt_eq_self {α : Type} (l : List α) (i : Nat) (f : α → α)
    (h : ∀ x, l[i]? = some x → f x = x) : modifyAt l i f = l := by
  induction l generalizing i with
  | nil => rfl
  | cons x xs ih =>
    cases i with
    | zero => simp [modifyAt, h x (by simp)]
    | succ i =>
      simp only [modifyAt, List.cons.injEq, true_and]
      exact ih i (fun y hy => h y (by simpa using hy))

theorem modifyAt_append_length {α : Type} (l : List α) (x : α) (f : α → α) :
    modifyAt (l ++ [x]) l.length f = l ++ [f x] := by
  induction l with
  | nil => rfl
  | cons y ys ih => simp [modifyAt, ih]

theorem urlsLookup_filter_ne (m : List (Url × Nat)) (u u' : Url) (h : u' ≠ u) :
    urlsLookup (m.filter (fun p => p.1 ≠ u)) u' = urlsLookup m u' := by
  induction m with
  | nil => rfl
  | cons p rest ih =>
    obtain ⟨k, v⟩ := p
    by_cases hk : k = u
    · have hdec : (decide ((k, v).1 ≠ u)) = false := by simp [hk]
      simp only [List.filter, hdec]
      rw [ih]
      simp only [urlsLookup]
      rw [if_neg (fun hc : k = u' => absurd (hc.symm.trans hk) h)]
    · have hdec : (decide ((k, v).1 ≠ u)) = true := by simp [hk]
      simp only [List.filter, hdec]
      simp only [urlsLookup]
      by_cases hk' : k = u'
      · rw [if_pos hk', if_pos hk']
      · rw [if_neg hk', if_neg hk', ih]

theorem urlsLookup_insert_self (m : List (Url × Nat)) (u : Url) (i : Nat) :
    urlsLookup (urlsInsert m u i) u = some i := by
  simp [urlsInsert, urlsLookup]

theorem urlsLookup_insert_ne (m : List (Url × Nat)) (u u' : Url) (i : Nat)
    (h : u' ≠ u) : urlsLookup (urlsInsert m u i) u' = urlsLookup m u' := by
  simp only [urlsInsert, urlsLookup, if_neg (fun hc : u = u' => h hc.symm)]
  exact urlsLookup_filter_ne m u u' h

theorem Entity.update_url (e : Entity) (t : Time) (ns ls : Finset String) :
    (e.update t ns ls).url = e.url := by
  simp only [Entity.update]; split <;> rfl

theorem Entity.update_names (e : Entity) (t : Time) (ns ls : Finset String) :
    (e.update t ns ls).names = e.names ∪ ns := by
  simp only [Entity.update]; split <;> rfl

theorem Entity.update_labels (e : Entity) (t : Time) (ns ls : Finset String) :
    (e.update t ns ls).labels = e.labels ∪ ls := by
  simp only [Entity.update]; split <;> rfl

theorem Entity.update_shared (e : Entity) (t : Time) (ns ls : Finset String) :
    (e.update t ns ls).shared = e.shared := by
  simp only [Entity.update]; split <;> rfl

theorem Entity.update_to_read (e : Entity) (t : Time) (ns ls : Finset String) :
    (e.update t ns ls).to_read = e.to_read := by
  simp only [Entity.update]; split <;> rfl

theorem Entity.update_is_feed (e : Entity) (t : Time) (ns ls : Finset String) :
    (e.update t ns ls).is_feed = e.is_feed := by
  simp only [Entity.update]; split <;> rfl

theorem Entity.merge_url (a b : Entity) : (a.merge b).url = a.url := by
  simp only [Entity.merge]
  exact Entity.update_url a b.created_at b.names b.labels

theorem Entity.merge_names (a b : Entity) :
    (a.merge b).names = a.names ∪ b.names := by
  simp only [Entity.merge]
  exact Entity.update_names a b.created_at b.names b.labels

theorem Entity.merge_labels (a b : Entity) :
    (a.merge b).labels = a.labels ∪ b.labels := by
  simp only [Entity.merge]
  exact Entity.update_labels a b.created_at b.names b.labels

theorem Entity.merge_shared (a b : Entity) :
    (a.merge b).shared = a.shared.merge b.shared := by
  simp only [Entity.merge]
  rw [Entity.update_shared]

theorem Entity.merge_to_read (a b : Entity) :
    (a.merge b).to_read = a.to_read.merge b.to_read := by
  simp only [Entity.merge]
  rw [Entity.update_to_read]

theorem Entity.merge_is_feed (a b : Entity) :
    (a.merge b).is_feed = a.is_feed.merge b.is_feed := by
  simp only [Entity.merge]
  rw [Entity.update_is_feed]

theorem edgesAt_eq_getElem? (c : Collection) (i : Nat) :
    c.edgesAt i = (c.edges[i]?).getD [] := by
  simp [Collection.edgesAt, List.getD_eq_getElem?_getD]

theorem edgesAt_addEdge_self (c : Collection) (f t : Nat)
    (hf : f < c.edges.length) :
    (c.addEdge f t).edgesAt f =
      if t ∈ c.edgesAt f then c.edgesAt f else c.edgesAt f ++ [t] := by
  obtain ⟨l, hl⟩ : ∃ l, c.edges[f]? = some l :=
    ⟨c.edges[f], List.getElem?_eq_getElem hf⟩
  simp only [edgesAt_eq_getElem?]
  show (modifyAt c.edges f fun l => if t ∈ l then l else l ++ [t])[f]?.getD [] = _
  rw [getElem?_modifyAt_self, hl]
  rfl

theorem edgesAt_addEdge_ne (c : Collection) (f t j : Nat) (hj : j ≠ f) :
    (c.addEdge f t).edgesAt j = c.edgesAt j := by
  rw [edgesAt_eq_getElem?, edgesAt_eq_getElem?]
  show (modifyAt c.edges f _)[j]?.getD [] = _
  rw [getElem?_modifyAt_ne _ _ _ _ hj]

theorem addEdge_edges_length (c : Collection) (f t : Nat) :
    (c.addEdge f t).edges.length = c.edges.length :=
  modifyAt_length c.edges f _

theorem addEdge_of_mem (c : Collection) (f t : Nat) (h : t ∈ c.edgesAt f) :
    c.addEdge f t = c := by
  have hmod : modifyAt c.edges f (fun l => if t ∈ l then l else l ++ [t]) = c.edges := by
    apply modifyAt_eq_self
    intro x hx
    have hx' : x = c.edgesAt f := by rw [edgesAt_eq_getElem?, hx]; rfl
    rw [hx'] at *
    exact if_pos h
  unfold Collection.addEdge
  rw [hmod]

theorem count_edgesAt_addEdge_self (c : Collection) (f t : Nat)
    (hf : f < c.edges.length) (h1 : (c.edgesAt f).count t ≤ 1) :
    ((c.addEdge f t).edgesAt f).count t = 1 := by
  rw [edgesAt_addEdge_self c f t hf]
  by_cases hm : t ∈ c.edgesAt f
  · rw [if_pos hm]
    have := List.count_pos_iff.mpr hm
    omega
  · rw [if_neg hm, List.count_append]
    rw [List.count_eq_zero.mpr hm]
    simp

/-- Shared concrete example data for witnesses. -/
def entA : Entity :=
  { Entity.new ⟨"http://example.com/"⟩ 100 (some "first name") {"lisp"} with
      shared := ⟨some false⟩ }

/-- Shared concrete example data for witnesses. -/
def entB : Entity :=
  { Entity.new ⟨"http://example.com/"⟩ 50 (some "second name") {"scheme"} with
      to_read := ⟨some true⟩ }

/-- Shared concrete example collection holding just `entA`. -/
def collA : Collection := (Collection.empty.insert entA).1

/-- C3: when `upsert` merges an incoming entity into an existing entity with
the same URL, each tri-state flag (shared, to_read, is_feed) of the result is
`Flag::merge` of the two sides' flags, and `Flag::merge` obeys: an unset side
yields the other side's value, and two set sides combine by logical OR (so
true beats false or unset, and false survives only when no side is true). -/
theorem upsert_merges_tristate_flags :
    (∀ (c : Collection) (e : Entity) (id : Nat) (ent : Entity),
        c.id e.url = some id → c.nodes[id]? = some ent →
          (c.upsert e).1.nodes[id]? = some (ent.merge e) ∧
          (ent.merge e).shared = ent.shared.merge e.shared ∧
          (ent.merge e).to_read = ent.to_read.merge e.to_read ∧
          (ent.merge e).is_feed = ent.is_feed.merge e.is_feed) ∧
    (∀ g : Flag, Flag.merge ⟨none⟩ g = g) ∧
    (∀ f : Flag, Flag.merge f ⟨none⟩ = f) ∧
    (∀ a b : Bool, Flag.merge ⟨some a⟩ ⟨some b⟩ = ⟨some (a || b)⟩) := by
  refine ⟨?_, ?_, ?_, ?_⟩
  · intro c e id ent hid hnode
    refine ⟨?_, Entity.merge_shared ent e, Entity.merge_to_read ent e,
      Entity.merge_is_feed ent e⟩
    have hc : c.upsert e =
        ({ c with nodes := modifyAt c.nodes id (fun x => x.merge e) }, id) := by
      unfold Collection.upsert
      rw [hid]
    rw [hc]
    show (modifyAt c.nodes id _)[id]? = _
    rw [getElem?_modifyAt_self, hnode]
    rfl
  · rintro ⟨_ | g⟩ <;> rfl
  · rintro ⟨_ | f⟩ <;> rfl
  · intro a b; rfl

/-- Witness for C3 at a concrete store and entity. -/
theorem upsert_merges_tristate_flags_witness :
    collA.id entB.url = some 0 ∧ collA.nodes[0]? = some entA ∧
    ((collA.upsert entB).1.nodes[0]? = some (entA.merge entB) ∧
      (entA.merge entB).shared = entA.shared.merge entB.shared ∧
      (entA.merge entB).to_read = entA.to_read.merge entB.to_read ∧
      (entA.merge entB).is_feed = entA.is_feed.merge entB.is_feed) :=
  ⟨by decide, by decide,
    upsert_merges_tristate_flags.1 collA entB 0 entA (by decide) (by decide)⟩

/-- C9: `add_edge(from, to)` appends `to` only when not already present, and
`add_edges(a, b)` applied twice leaves each adjacency list containing the
other id exactly once. -/
theorem add_edge_idempotent :
    (∀ (c : Collection) (f t : Nat), t ∈ c.edgesAt f → c.addEdge f t = c) ∧
    (∀ (c : Collection) (f t : Nat), f < c.edges.length → t ∉ c.edgesAt f →
      (c.addEdge f t).edgesAt f = c.edgesAt f ++ [t]) ∧
    (∀ (c : Collection) (a b : Nat), a < c.edges.length → b < c.edges.length →
      (c.edgesAt a).count b ≤ 1 → (c.edgesAt b).count a ≤ 1 →
      (((c.addEdges a b).addEdges a b).edgesAt a).count b = 1 ∧
      (((c.addEdges a b).addEdges a b).edgesAt b).count a = 1) := by
  refine ⟨addEdge_of_mem, ?_, ?_⟩
  · intro c f t hf hm
    rw [edgesAt_addEdge_self c f t hf, if_neg hm]
  · intro c a b ha hb hca hcb
    by_cases hab : a = b
    · subst hab
      have h1 : ((c.addEdge a a).edgesAt a).count a = 1 :=
        count_edgesAt_addEdge_self c a a ha hca
      have hmem : a ∈ (c.addEdge a a).edgesAt a :=
        List.count_pos_iff.mp (by omega)
      have h2 : (c.addEdge a a).addEdge a a = c.addEdge a a :=
        addEdge_of_mem _ a a hmem
      have hc1 : c.addEdges a a = c.addEdge a a := h2
      have hmem' : a ∈ (c.addEdges a a).edgesAt a := by rw [hc1]; exact hmem
      have hc2 : (c.addEdges a a).addEdges a a = c.addEdges a a := by
        show ((c.addEdges a a).addEdge a a).addEdge a a = c.addEdges a a
        rw [addEdge_of_mem _ a a hmem', addEdge_of_mem _ a a hmem']
      rw [hc2, hc1]
      exact ⟨h1, h1⟩
    · have h1 : ((c.addEdge a b).edgesAt a).count b = 1 :=
        count_edgesAt_addEdge_self c a b ha hca
      have h2 : ((c.addEdges a b).edgesAt a).count b = 1 := by
        show (((c.addEdge a b).addEdge b a).edgesAt a).count b = 1
        rw [edgesAt_addEdge_ne _ b a a hab]
        exact h1
      have h3 : ((c.addEdges a b).edgesAt b).count a = 1 := by
        show (((c.addEdge a b).addEdge b a).edgesAt b).count a = 1
        apply count_edgesAt_addEdge_self
        · rw [addEdge_edges_length]; exact hb
        · rw [edgesAt_addEdge_ne _ a b b (fun h => hab h.symm)]
          exact hcb
      have hma : b ∈ (c.addEdges a b).edgesAt a :=
        List.count_pos_iff.mp (by omega)
      have hmb : a ∈ (c.addEdges a b).edgesAt b :=
        List.count_pos_iff.mp (by omega)
      have hfix : (c.addEdges a b).addEdges a b = c.addEdges a b := by
        show ((c.addEdges a b).addEdge a b).addEdge b a = c.addEdges a b
        rw [addEdge_of_mem _ a b hma]
        exact addEdge_of_mem _ b a hmb
      rw [hfix]
      exact ⟨h2, h3⟩

/-- Shared concrete two-node example collection for edge witnesses. -/
def collAB : Collection :=
  (((Collection.empty.insert entA).1.insert
      (Entity.new ⟨"http://other.example/"⟩ 10 none ∅)).1)

/-- Witness for C9 at a concrete store and id pair. -/
theorem add_edge_idempotent_witness :
    (0 < collAB.edges.length ∧ 1 < collAB.edges.length ∧
      (collAB.edgesAt 0).count 1 ≤ 1 ∧ (collAB.edgesAt 1).count 0 ≤ 1) ∧
    ((((collAB.addEdges 0 1).addEdges 0 1).edgesAt 0).count 1 = 1 ∧
      (((collAB.addEdges 0 1).addEdges 0 1).edgesAt 1).count 0 = 1) :=
  ⟨⟨by decide, by decide, by decide, by decide⟩,
    add_edge_idempotent.2.2 collAB 0 1 (by decide) (by decide) (by decide)
      (by decide)⟩

theorem upsert_insert_of_absent (c : Collection) (e : Entity)
    (habs : c.id e.url = none) : c.upsert e = c.insert e := by
  unfold Collection.upsert
  rw [habs]

/-- C1: two upserts keyed by the same URL `u` on a store that has no entity
for `u` leave exactly one entity for `u`, the store grows by one over the
pair, and that entity's names and labels are the set unions of the two
inputs' names and labels. -/
theorem upsert_pair_union (c : Collection) (u : Url) (e1 e2 : Entity)
    (h1 : e1.url = u) (h2 : e2.url = u)
    (habs : c.id u = none) (hno : ∀ e ∈ c.nodes, e.url ≠ u) :
    ((c.upsert e1).1.upsert e2).1.len = c.len + 1 ∧
    (((c.upsert e1).1.upsert e2).1.nodes.countP
        (fun e => decide (e.url = u))) = 1 ∧
    ((c.upsert e1).1.upsert e2).1.id u = some ((c.upsert e1).1.upsert e2).2 ∧
    ∃ ent,
      ((c.upsert e1).1.upsert e2).1.nodes[((c.upsert e1).1.upsert e2).2]? =
          some ent ∧
        ent.names = e1.names ∪ e2.names ∧ ent.labels = e1.labels ∪ e2.labels := by
  have hu1 : c.upsert e1 = c.insert e1 :=
    upsert_insert_of_absent c e1 (by rw [h1]; exact habs)
  have hid2 : (c.insert e1).1.id e2.url = some c.len := by
    show urlsLookup (urlsInsert c.urls e1.url c.len) e2.url = some c.len
    rw [h1, h2]
    exact urlsLookup_insert_self c.urls u c.len
  have hu2 : (c.insert e1).1.upsert e2 =
      ({ (c.insert e1).1 with
          nodes := modifyAt (c.insert e1).1.nodes c.len (fun x => x.merge e2) },
        c.len) := by
    unfold Collection.upsert
    rw [hid2]
  have hnodes : modifyAt (c.insert e1).1.nodes c.len (fun x => x.merge e2) =
      c.nodes ++ [e1.merge e2] := by
    show modifyAt (c.nodes ++ [e1]) c.nodes.length (fun x => x.merge e2) = _
    exact modifyAt_append_length c.nodes e1 _
  rw [hu1, hu2, hnodes]
  refine ⟨?_, ?_, ?_, e1.merge e2, ?_, Entity.merge_names e1 e2,
    Entity.merge_labels e1 e2⟩
  · show (c.nodes ++ [e1.merge e2]).length = c.nodes.length + 1
    simp
  · show ((c.nodes ++ [e1.merge e2]).countP (fun e => decide (e.url = u))) = 1
    rw [List.countP_append]
    have hz : c.nodes.countP (fun e => decide (e.url = u)) = 0 := by
      rw [List.countP_eq_zero]
      intro e he
      simpa using hno e he
    rw [hz]
    have : (e1.merge e2).url = u := by rw [Entity.merge_url, h1]
    simp [List.countP, List.countP.go, this]
  · show urlsLookup (urlsInsert c.urls e1.url c.len) u = some c.len
    rw [h1]
    exact urlsLookup_insert_self c.urls u c.len
  · show (c.nodes ++ [e1.merge e2])[c.len]? = some (e1.merge e2)
    show (c.nodes ++ [e1.merge e2])[c.nodes.length]? = some (e1.merge e2)
    simp

/-- Witness for C1 at the empty store and two concrete entities. -/
theorem upsert_pair_union_witness :
    (entA.url = ⟨"http://example.com/"⟩ ∧ entB.url = ⟨"http://example.com/"⟩ ∧
      Collection.empty.id ⟨"http://example.com/"⟩ = none ∧
      ∀ e ∈ Collection.empty.nodes, e.url ≠ ⟨"http://example.com/"⟩) ∧
    ((Collection.empty.upsert entA).1.upsert entB).1.len =
        Collection.empty.len + 1 ∧
    (((Collection.empty.upsert entA).1.upsert entB).1.nodes.countP
        (fun e => decide (e.url = (⟨"http://example.com/"⟩ : Url)))) = 1 :=
  ⟨⟨rfl, rfl, rfl, by decide⟩,
    (upsert_pair_union Collection.empty ⟨"http://example.com/"⟩ entA entB rfl
        rfl rfl (by decide)).1,
    (upsert_pair_union Collection.empty ⟨"http://example.com/"⟩ entA entB rfl
        rfl rfl (by decide)).2.1⟩

theorem Entity.merge_created_at (a b : Entity) :
    (a.merge b).created_at =
      if b.created_at < a.created_at then b.created_at else a.created_at := by
  simp only [Entity.merge, Entity.update]
  split <;> rfl

theorem Entity.merge_updated_at (a b : Entity) :
    (a.merge b).updated_at =
      if b.created_at < a.created_at then
        List.insertionSort (· ≤ ·) (a.updated_at ++ [a.created_at])
      else
        List.insertionSort (· ≤ ·) (a.updated_at ++ [b.created_at]) := by
  simp only [Entity.merge, Entity.update]
  split <;> rfl

/-- One observation of a URL: a creation time, an optional display name and
a label set, made into a fresh entity as both parsers do. -/
def mkObs (u : Url) (o : Time × Option String × Finset String) : Entity :=
  Entity.new u o.1 o.2.1 o.2.2

/-- A sequence of upserts of fresh entities sharing the URL `u`, starting
from the empty store. -/
def seqUpsert (u : Url) (f : Time × Option String × Finset String)
    (obs : List (Time × Option String × Finset String)) : Collection :=
  obs.foldl (fun c o => (c.upsert (mkObs u o)).1)
    ((Collection.empty.upsert (mkObs u f)).1)

/-- Invariant tying the store to the multiset of observed creation times. -/
def ObsInv (u : Url) (times : List Time) (c : Collection) : Prop :=
  ∃ e, c.nodes = [e] ∧ c.urls = [(u, 0)] ∧ e.url = u ∧
    (∀ t ∈ times, e.created_at ≤ t) ∧
    (e.created_at :: e.updated_at).Perm times ∧
    e.updated_at.Sorted (· ≤ ·)

theorem obsInv_init (u : Url) (f : Time × Option String × Finset String) :
    ObsInv u [f.1] ((Collection.empty.upsert (mkObs u f)).1) := by
  refine ⟨mkObs u f, rfl, rfl, rfl, ?_, ?_, ?_⟩
  · intro t ht
    simp only [List.mem_singleton] at ht
    exact le_of_eq (ht ▸ rfl)
  · exact List.Perm.refl _
  · exact List.sorted_nil

theorem obsInv_upsert (u : Url) (times : List Time) (c : Collection)
    (o : Time × Option String × Finset String) (h : ObsInv u times c) :
    ObsInv u (times ++ [o.1]) ((c.upsert (mkObs u o)).1) := by
  obtain ⟨e, hn, hu, hurl, hlb, hperm, hsort⟩ := h
  have hid : c.id u = some 0 := by
    show urlsLookup c.urls u = some 0
    rw [hu]
    simp [urlsLookup]
  have hup : c.upsert (mkObs u o) =
      ({ c with nodes := modifyAt c.nodes 0 (fun x => x.merge (mkObs u o)) },
        0) := by
    unfold Collection.upsert
    show (match c.id (mkObs u o).url with
      | some id => _
      | none => c.insert (mkObs u o)) = _
    rw [show (mkObs u o).url = u from rfl, hid]
  refine ⟨e.merge (mkObs u o), ?_, ?_, ?_, ?_, ?_, ?_⟩
  · rw [hup]
    show modifyAt c.nodes 0 _ = _
    rw [hn]
    rfl
  · rw [hup]
    exact hu
  · rw [Entity.merge_url]
    exact hurl
  · intro t ht
    rw [Entity.merge_created_at]
    rcases List.mem_append.mp ht with hin | hin
    · split
      · next hlt => exact le_trans (le_of_lt hlt) (hlb t hin)
      · exact hlb t hin
    · simp only [List.mem_singleton] at hin
      subst hin
      split
      · exact le_refl _
      · next hge => exact le_of_not_lt hge
  · rw [Entity.merge_created_at, Entity.merge_updated_at]
    split
    · have p1 : (List.insertionSort (· ≤ ·)
            (e.updated_at ++ [e.created_at])).Perm
            (e.created_at :: e.updated_at) :=
        (List.perm_insertionSort _ _).trans (List.perm_append_singleton _ _)
      have p2 := List.Perm.cons ((mkObs u o).created_at) (p1.trans hperm)
      exact p2.trans (List.perm_append_singleton _ _).symm
    · have q1 : (List.insertionSort (· ≤ ·)
            (e.updated_at ++ [(mkObs u o).created_at])).Perm
            (e.updated_at ++ [(mkObs u o).created_at]) :=
        List.perm_insertionSort _ _
      have q2 := List.Perm.cons e.created_at q1
      have q3 : ((e.created_at :: e.updated_at) ++
          [(mkObs u o).created_at]).Perm (times ++ [(mkObs u o).created_at]) :=
        hperm.append_right _
      exact q2.trans q3
  · rw [Entity.merge_updated_at]
    split <;> exact List.sorted_insertionSort _ _

theorem obsInv_foldl (u : Url)
    (obs : List (Time × Option String × Finset String)) :
    ∀ (times : List Time) (c : Collection), ObsInv u times c →
      ObsInv u (times ++ obs.map (·.1))
        (obs.foldl (fun c o => (c.upsert (mkObs u o)).1) c) := by
  induction obs with
  | nil => intro times c h; simpa using h
  | cons o rest ih =>
    intro times c h
    have step := obsInv_upsert u times c o h
    have := ih (times ++ [o.1]) _ step
    simpa using this

/-- C2: over any sequence of upserts of fresh entities sharing one URL, the
stored entity's `created_at` is the minimum of all observed creation times,
`updated_at` is sorted ascending and holds exactly the remaining observed
times; in particular merging exactly two entities leaves `created_at` the
smaller and `updated_at` exactly the other time. -/
theorem upsert_sequence_times (u : Url)
    (f : Time × Option String × Finset String)
    (obs : List (Time × Option String × Finset String)) :
    (∃ e, (seqUpsert u f obs).nodes = [e] ∧
      e.created_at ∈ f.1 :: obs.map (·.1) ∧
      (∀ t ∈ f.1 :: obs.map (·.1), e.created_at ≤ t) ∧
      (e.created_at :: e.updated_at).Perm (f.1 :: obs.map (·.1)) ∧
      e.updated_at.Sorted (· ≤ ·)) ∧
    (∀ (t0 t1 : Time) (n0 n1 : Option String) (l0 l1 : Finset String),
      ∃ e, (seqUpsert u (t0, n0, l0) [(t1, n1, l1)]).nodes = [e] ∧
        e.created_at = min t0 t1 ∧ e.updated_at = [max t0 t1]) := by
  constructor
  · have h := obsInv_foldl u obs [f.1] _ (obsInv_init u f)
    obtain ⟨e, hn, _, _, hlb, hperm, hsort⟩ := h
    exact ⟨e, hn, (hperm.mem_iff).mp (List.mem_cons_self _ _), hlb, hperm, hsort⟩
  · intro t0 t1 n0 n1 l0 l1
    have h := obsInv_foldl u [(t1, n1, l1)] [t0] _ (obsInv_init u (t0, n0, l0))
    obtain ⟨e, hn, _, _, hlb, hperm, hsort⟩ := h
    have hperm2 : (e.created_at :: e.updated_at).Perm [t0, t1] := by
      simpa using hperm
    have hmem : e.created_at ∈ [t0, t1] := (hperm2.mem_iff).mp (by simp)
    have h0 := hlb t0 (by simp)
    have h1 := hlb t1 (by simp)
    simp only [List.mem_cons, List.mem_singleton, List.not_mem_nil,
      or_false] at hmem
    refine ⟨e, hn, ?_, ?_⟩
    · rcases hmem with he | he
      · rw [he] at h1 ⊢
        exact (min_eq_left h1).symm
      · rw [he] at h0 ⊢
        exact (min_eq_right h0).symm
    · rcases le_total t0 t1 with hle | hle
      · have hce : e.created_at = t0 := by
          rcases hmem with he | he
          · exact he
          · have ht : t1 ≤ t0 := he ▸ h0
            exact he.trans (le_antisymm ht hle)
        have hps : (t0 :: e.updated_at).Perm (t0 :: [t1]) := hce ▸ hperm2
        have hupd : e.updated_at.Perm [t1] := hps.cons_inv
        rw [List.perm_singleton.mp hupd]
        rw [max_eq_right hle]
      · have hce : e.created_at = t1 := by
          rcases hmem with he | he
          · have ht : t0 ≤ t1 := he ▸ h1
            exact he.trans (le_antisymm ht hle)
          · exact he
        have hps : (t1 :: e.updated_at).Perm (t1 :: [t0]) :=
          (hce ▸ hperm2).trans (List.Perm.swap t1 t0 [])
        have hupd : e.updated_at.Perm [t0] := hps.cons_inv
        rw [List.perm_singleton.mp hupd]
        rw [max_eq_left hle]

/-- The store invariant of spec §3: node count equals edge-list count, and
the URL index is a bijection onto the currently-live ids. -/
def StoreInv (c : Collection) : Prop :=
  c.nodes.length = c.edges.length ∧
  (∀ (u : Url) (i : Nat), urlsLookup c.urls u = some i →
    ∃ ent, c.nodes[i]? = some ent ∧ ent.url = u) ∧
  (∀ (i : Nat) (ent : Entity), c.nodes[i]? = some ent →
    urlsLookup c.urls ent.url = some i)

/-- Collections reachable from the empty store through the public mutating
operations, with `insert` applied only to URLs not already indexed (which is
what `upsert` guarantees whenever it inserts). -/
inductive Reach : Collection → Prop
  | empty : Reach Collection.empty
  | ins {c : Collection} {e : Entity} : Reach c → c.id e.url = none →
      Reach (c.insert e).1
  | ups {c : Collection} {e : Entity} : Reach c → Reach (c.upsert e).1
  | edge {c : Collection} {f t : Nat} : Reach c → Reach (c.addEdge f t)
  | edgesBoth {c : Collection} {f t : Nat} : Reach c → Reach (c.addEdges f t)
  | relabel {c : Collection} {m : List (String × String)} : Reach c →
      Reach (c.updateLabels m)

theorem storeInv_empty : StoreInv Collection.empty := by
  refine ⟨rfl, ?_, ?_⟩
  · intro u i h
    simp [urlsLookup] at h
  · intro i ent h
    simp [Collection.empty] at h

theorem storeInv_insert (c : Collection) (e : Entity)
    (habs : c.id e.url = none) (h : StoreInv c) : StoreInv (c.insert e).1 := by
  obtain ⟨hlen, h2, h3⟩ := h
  refine ⟨?_, ?_, ?_⟩
  · show (c.nodes ++ [e]).length = (c.edges ++ [([] : List Nat)]).length
    simp only [List.length_append, List.length_cons, List.length_nil]
    omega
  · intro u i hl
    show ∃ ent, (c.nodes ++ [e])[i]? = some ent ∧ ent.url = u
    by_cases hu : u = e.url
    · subst hu
      rw [show (c.insert e).1.urls = urlsInsert c.urls e.url c.len from rfl,
        urlsLookup_insert_self] at hl
      obtain rfl : c.len = i := Option.some.inj hl
      exact ⟨e, by simp [Collection.len], rfl⟩
    · rw [show (c.insert e).1.urls = urlsInsert c.urls e.url c.len from rfl,
        urlsLookup_insert_ne c.urls e.url u c.len hu] at hl
      obtain ⟨ent, hent, hurl⟩ := h2 u i hl
      have hi : i < c.nodes.length := by
        by_contra hge
        rw [List.getElem?_eq_none (by omega)] at hent
        exact Option.noConfusion hent
      exact ⟨ent, by rw [List.getElem?_append_left hi]; exact hent, hurl⟩
  · intro i ent hent
    show urlsLookup (urlsInsert c.urls e.url c.len) ent.url = some i
    have hi : i < c.nodes.length + 1 := by
      by_contra hge
      rw [show (c.insert e).1.nodes = c.nodes ++ [e] from rfl,
        List.getElem?_eq_none (by simp; omega)] at hent
      exact Option.noConfusion hent
    rcases Nat.lt_or_ge i c.nodes.length with hlt | hge
    · have hent' : c.nodes[i]? = some ent := by
        rw [show (c.insert e).1.nodes = c.nodes ++ [e] from rfl,
          List.getElem?_append_left hlt] at hent
        exact hent
      have hne : ent.url ≠ e.url := by
        intro hcontra
        have := h3 i ent hent'
        rw [hcontra] at this
        rw [show c.id e.url = urlsLookup c.urls e.url from rfl] at habs
        rw [habs] at this
        exact Option.noConfusion this
      rw [urlsLookup_insert_ne c.urls e.url ent.url c.len hne]
      exact h3 i ent hent'
    · have hieq : i = c.nodes.length := by omega
      subst hieq
      have : ent = e := by
        rw [show (c.insert e).1.nodes = c.nodes ++ [e] from rfl] at hent
        simp at hent
        exact hent.symm
      subst this
      rw [urlsLookup_insert_self]
      rfl

theorem storeInv_upsert (c : Collection) (e : Entity) (h : StoreInv c) :
    StoreInv (c.upsert e).1 := by
  obtain ⟨hlen, h2, h3⟩ := h
  cases hid : c.id e.url with
  | none =>
    rw [upsert_insert_of_absent c e hid]
    exact storeInv_insert c e hid ⟨hlen, h2, h3⟩
  | some id =>
    have hup : c.upsert e =
        ({ c with nodes := modifyAt c.nodes id (fun x => x.merge e) }, id) := by
      unfold Collection.upsert
      rw [hid]
    rw [hup]
    refine ⟨?_, ?_, ?_⟩
    · show (modifyAt c.nodes id _).length = c.edges.length
      rw [modifyAt_length]
      exact hlen
    · intro u i hl
      obtain ⟨ent, hent, hurl⟩ := h2 u i hl
      by_cases hieq : i = id
      · subst hieq
        refine ⟨ent.merge e, ?_, by rw [Entity.merge_url]; exact hurl⟩
        show (modifyAt c.nodes i _)[i]? = _
        rw [getElem?_modifyAt_self, hent]
        rfl
      · refine ⟨ent, ?_, hurl⟩
        show (modifyAt c.nodes id _)[i]? = _
        rw [getElem?_modifyAt_ne _ _ _ _ hieq]
        exact hent
    · intro i ent hent
      by_cases hieq : i = id
      · subst hieq
        rw [show ({ c with nodes := modifyAt c.nodes i (fun x => x.merge e) } :
            Collection).nodes = modifyAt c.nodes i (fun x => x.merge e) from rfl,
          getElem?_modifyAt_self] at hent
        cases hn : c.nodes[i]? with
        | none => rw [hn] at hent; exact Option.noConfusion hent
        | some ent0 =>
          rw [hn] at hent
          obtain rfl : ent0.merge e = ent := Option.some.inj hent
          rw [Entity.merge_url]
          exact h3 i ent0 hn
      · rw [show ({ c with nodes := modifyAt c.nodes id (fun x => x.merge e) } :
            Collection).nodes = modifyAt c.nodes id (fun x => x.merge e) from rfl,
          getElem?_modifyAt_ne _ _ _ _ hieq] at hent
        exact h3 i ent hent

theorem storeInv_addEdge (c : Collection) (f t : Nat) (h : StoreInv c) :
    StoreInv (c.addEdge f t) := by
  obtain ⟨hlen, h2, h3⟩ := h
  refine ⟨?_, h2, h3⟩
  show c.nodes.length = (modifyAt c.edges f _).length
  rw [modifyAt_length]
  exact hlen

theorem storeInv_updateLabels (c : Collection) (m : List (String × String))
    (h : StoreInv c) : StoreInv (c.updateLabels m) := by
  obtain ⟨hlen, h2, h3⟩ := h
  refine ⟨?_, ?_, ?_⟩
  · show (c.nodes.map _).length = c.edges.length
    rw [List.length_map]
    exact hlen
  · intro u i hl
    obtain ⟨ent, hent, hurl⟩ := h2 u i hl
    refine ⟨{ ent with
        labels :=
          ent.labels.filter (fun l => mappingLookup m l = none) ∪
            (ent.labels.filter (fun l => (mappingLookup m l).isSome)).image
              (fun l => (mappingLookup m l).getD l) }, ?_, hurl⟩
    show (c.nodes.map _)[i]? = _
    rw [List.getElem?_map, hent]
    rfl
  · intro i ent hent
    rw [show (c.updateLabels m).nodes = c.nodes.map _ from rfl,
      List.getElem?_map] at hent
    cases hn : c.nodes[i]? with
    | none => rw [hn] at hent; exact Option.noConfusion hent
    | some ent0 =>
      rw [hn] at hent
      obtain rfl := Option.some.inj hent
      show urlsLookup c.urls ent0.url = some i
      exact h3 i ent0 hn

/-- C4 (amended): for every sequence of the public mutating operations from
the empty store in which `insert` is only applied to URLs not already
indexed, node count equals edge-list count and the URL index is a bijection
onto the live ids. -/
theorem store_invariant_reachable : ∀ c : Collection, Reach c → StoreInv c := by
  intro c h
  induction h with
  | empty => exact storeInv_empty
  | ins hr habs ih => exact storeInv_insert _ _ habs ih
  | ups hr ih => exact storeInv_upsert _ _ ih
  | edge hr ih => exact storeInv_addEdge _ _ _ ih
  | edgesBoth hr ih => exact storeInv_addEdge _ _ _ (storeInv_addEdge _ _ _ ih)
  | relabel hr ih => exact storeInv_updateLabels _ _ ih

/-- C4 counterexample: `insert` called twice with the same URL (a sequence
the claim as stated allows) leaves two live nodes carrying that URL while the
URL index points only at the newer id, so the index is not a bijection onto
the live ids. -/
theorem insert_duplicate_breaks_url_index :
    ¬ StoreInv ((Collection.empty.insert entA).1.insert entA).1 := by
  rintro ⟨-, -, h3⟩
  have h := h3 0 entA (by rfl)
  have hc : urlsLookup ((Collection.empty.insert entA).1.insert entA).1.urls
      entA.url = some 1 := by rfl
  rw [hc] at h
  exact Nat.succ_ne_zero 0 (Option.some.inj h)

/-- Witness for the amended C4 at a concrete reachable store. -/
theorem store_invariant_reachable_witness :
    Reach (((Collection.empty.upsert entA).1.upsert entB).1.addEdges 0 0) ∧
    StoreInv (((Collection.empty.upsert entA).1.upsert entB).1.addEdges 0 0) :=
  ⟨Reach.edgesBoth (Reach.ups (Reach.ups Reach.empty)),
    store_invariant_reachable _
      (Reach.edgesBoth (Reach.ups (Reach.ups Reach.empty)))⟩

/-- C6 (code bug): `parse_timestamp_attr_opt` in `core/src/html.rs` hits
`Time::parse(trimmed).unwrap()  // TODO` on a non-empty, unparseable
timestamp attribute and panics, while the sibling implementation in the
`netscape` module of `core/src/collection.rs` propagates the parse error as
the spec requires. -/
theorem html_timestamp_attr_panics :
    htmlParseTimestampAttrOpt
        [("href", "http://example.com/"), ("add_date", "notatime")]
        "add_date" = PanicOr.panicked ∧
    netscapeParseTimestampAttrOpt
        [("href", "http://example.com/"), ("add_date", "notatime")]
        "add_date" = Except.error EntityError.parseInt := by
  exact ⟨rfl, rfl⟩

end Hbt
